import Mathlib

/-!
Shallow embedding of the `range` lazy-sequence library (source file
`range.js`, the richly documented revision).  JavaScript numbers that can
occur in the library are modelled by `Val` (safe-range integers, the two
infinities, `NaN`, and `undefined`, which appears as the value of finished
iterations).  A chain of `Range` objects is modelled by the inductive
`Chain`; every mutable field of the source class appears in `NState`.
The generator created by `createIterator` is an explicit three-state
machine (`GenPC`) whose `currentValue` variable is the aliased
`_currentValue` field of the root `Range` instance, exactly as in the
source.  `Range.next` / `getNextValue` are one fuel-indexed structurally
recursive interpreter (`jsCore`), so that concrete runs compute by kernel
reduction; the fuel only bounds the recursion of filter retries and
parent pulls, and results are independent of the fuel (monotonicity is
proved below).
-/

namespace RangeJs

/-- Numeric-or-special values of the embedded JavaScript fragment. -/
inductive Val where
  | int : Int → Val
  | inf : Bool → Val
  | nan : Val
  | undef : Val
deriving DecidableEq, Repr

/-- Largest safe integer, `Number.MAX_SAFE_INTEGER`. -/
def MAX_SAFE : Int := 9007199254740991

/-- JavaScript `a < b` on our value domain (`NaN`/`undefined` compare false). -/
def jsLt : Val → Val → Bool
  | .int a, .int b => a < b
  | .int _, .inf b => b
  | .inf a, .int _ => !a
  | .inf a, .inf b => !a && b
  | _, _ => false

/-- JavaScript `a <= b` (`NaN`/`undefined` compare false). -/
def jsLe : Val → Val → Bool
  | .int a, .int b => a ≤ b
  | .int _, .inf b => b
  | .inf a, .int _ => !a
  | .inf a, .inf b => !a || b
  | _, _ => false

/-- JavaScript `a >= b`. -/
def jsGe (a b : Val) : Bool := jsLe b a

/-- JavaScript addition on the values that occur in the library
(`undefined` coerces to `NaN`; integer sums in the library stay exact
because the emitter clamps before leaving the safe range). -/
def jsAdd : Val → Val → Val
  | .int a, .int b => .int (a + b)
  | .inf a, .int _ => .inf a
  | .int _, .inf b => .inf b
  | .inf a, .inf b => if a = b then .inf a else .nan
  | _, _ => .nan

/-- JavaScript subtraction. -/
def jsSub : Val → Val → Val
  | .int a, .int b => .int (a - b)
  | .inf a, .int _ => .inf a
  | .int _, .inf b => .inf !b
  | .inf a, .inf b => if a = b then .nan else .inf a
  | _, _ => .nan

/-- JavaScript `Math.abs` (`undefined` coerces to `NaN`). -/
def jsAbs : Val → Val
  | .int n => .int |n|
  | .inf _ => .inf true
  | _ => .nan

/-- JavaScript `Math.sign(v) * Infinity` as used by the emitter clamp
(sign of `0` is `0`, and `0 * Infinity` is `NaN`). -/
def signTimesInf : Val → Val
  | .int n => if 0 < n then .inf true else if n < 0 then .inf false else .nan
  | .inf b => .inf b
  | _ => .nan

/-- JavaScript truthiness for the values of the embedding. -/
def truthy : Val → Bool
  | .int n => !(n = 0)
  | .inf _ => true
  | _ => false

/-- JavaScript `Number.isFinite`. -/
def isFiniteV : Val → Bool
  | .int _ => true
  | _ => false

/-- JavaScript `Number.isSafeInteger` on the modelled domain. -/
def isSafeInt : Val → Bool
  | .int n => -MAX_SAFE ≤ n && n ≤ MAX_SAFE
  | _ => false

/-- One iteration step `{done, value}` of the iterator protocol. -/
structure Iter where
  done : Bool
  value : Val
deriving DecidableEq, Repr

/-- The `done` iteration `{done: true, value: undefined}`. -/
def doneIter : Iter := ⟨true, .undef⟩

/-- The immutable closure parameters `start`, `end`, `step` shared by a
`range()` invocation (after validation: `start` and `step` are safe
integers, `step` is nonzero, `end` is an integer or an infinity). -/
structure Closure where
  start : Int
  endV : Val
  step : Int
deriving Repr

/-- Program counter of the generator made by `createIterator`: not yet
resumed, suspended at the `yield`, or returned. -/
inductive GenPC where
  | fresh
  | running
  | finished
deriving DecidableEq, Repr

/-- The mutable fields of one `Range` instance. -/
structure NState where
  currentValue : Val
  index : Val
  cachedLength : Option Val
  preGen : List (Iter × Val)
  origVals : Option (List (Iter × Val))
  genCount : Val
  isFin : Bool

/-- A chain of `Range` nodes.  A `node` carries its optional `_filter`,
`_map` and `_stop` callbacks (modelled as pure functions of the value and
the index) and its `_parentRange`; a `root` carries the generator state.
Every node also records the closure it was created in. -/
inductive Chain where
  | root : Closure → GenPC → NState → Chain
  | node : Closure → Option (Val → Val → Bool) → Option (Val → Val → Val) →
      Option (Val → Val → Bool) → NState → Chain → Chain

/-- State of a chain's top node. -/
def stOf : Chain → NState
  | .root _ _ st => st
  | .node _ _ _ _ st _ => st

/-- Replace the state of a chain's top node. -/
def withSt : Chain → NState → Chain
  | .root cl pc _, st => .root cl pc st
  | .node cl f m s _ p, st => .node cl f m s st p

/-- Closure of a chain's top node. -/
def clOf : Chain → Closure
  | .root cl _ _ => cl
  | .node cl _ _ _ _ _ => cl

/-- The `isEnded()` test of `createIterator`. -/
def isEnded (cl : Closure) (cv : Val) : Bool :=
  if !isFiniteV cl.endV then false
  else if 0 < cl.step then jsGe cv cl.endV
  else jsLe cv cl.endV

/-- Advancing `_currentValue` inside the generator loop, with the
overflow clamp to a signed infinity. -/
def advanceCV (cl : Closure) (cv : Val) : Val :=
  let currentSafeLimit : Int := MAX_SAFE - |cl.step|
  if jsLt (.int currentSafeLimit) (jsAbs cv) then signTimesInf cv
  else jsAdd cv (.int cl.step)

/-- One resumption of the generator made by `createIterator`; returns the
iteration, the new program counter and the new `_currentValue`. -/
def genNext (cl : Closure) (pc : GenPC) (cv : Val) : Iter × GenPC × Val :=
  match pc with
  | .finished => (doneIter, .finished, cv)
  | .fresh =>
      if isEnded cl cv then (doneIter, .finished, cv)
      else (⟨false, cv⟩, .running, cv)
  | .running =>
      let cv' := advanceCV cl cv
      if isEnded cl cv' then (doneIter, .finished, cv')
      else (⟨false, cv'⟩, .running, cv')

/-- Incrementing an index or counter with the saturation to infinity
used by `getNextValue` and `Range.next`. -/
def bumpIndex (ci : Val) : Val :=
  if jsLt ci (.int MAX_SAFE) then jsAdd ci (.int 1) else .inf true

/-- Fused interpreter for `Range.next` (`mode = true`, the argument `ci`
is ignored) and `getNextValue` (`mode = false`, `ci` is the
`currentIndex` argument).  Fuel bounds the recursion; `none` means the
fuel ran out.  The returned triple is the iteration, the `nextIndex`,
and the chain with all side effects applied. -/
def jsCore : Nat → Bool → Chain → Val → Option (Iter × Val × Chain)
  | 0, _, _, _ => none
  | fuel + 1, true, c, _ =>
      let st := stOf c
      match st.preGen with
      | (it, ni) :: rest =>
          let st' := { st with preGen := rest, index := ni, currentValue := it.value, genCount := bumpIndex st.genCount }
          some (it, ni, withSt c st')
      | [] =>
          match jsCore fuel false c st.index with
          | none => none
          | some (it, ni, c') =>
              let st2 := stOf c'
              let st' := { st2 with index := ni, currentValue := it.value, genCount := bumpIndex st2.genCount }
              some (it, ni, withSt c' st')
  | fuel + 1, false, c, ci =>
      let ni := bumpIndex ci
      match c with
      | .root cl pc st =>
          let r := genNext cl pc st.currentValue
          some (r.1, ni, .root cl r.2.1 { st with currentValue := r.2.2 })
      | .node cl f m s st parent =>
          match jsCore fuel true parent (.int 0) with
          | none => none
          | some (it, _, parent') =>
              let c' := Chain.node cl f m s st parent'
              if it.done then some (it, ni, c')
              else if (match f with
                       | some φ => !φ it.value ni
                       | none => false) then
                jsCore fuel false c' ci
              else
                let v := match m with
                         | some μ => μ it.value ni
                         | none => it.value
                match s with
                | some σ =>
                    if !σ v ni then some (doneIter, ni, c')
                    else some (⟨false, v⟩, ni, c')
                | none => some (⟨false, v⟩, ni, c')

/-- `Range.next`: the iteration and the updated chain. -/
def rangeNext (fuel : Nat) (c : Chain) : Option (Iter × Chain) :=
  (jsCore fuel true c (.int 0)).map (fun r => (r.1, r.2.2))

/-- `getNextValue`: iteration, next index, updated chain. -/
def getNextValue (fuel : Nat) (c : Chain) (ci : Val) : Option (Iter × Val × Chain) :=
  jsCore fuel false c ci

/-- Filter callback of a chain's top node. -/
def filterOf : Chain → Option (Val → Val → Bool)
  | .root _ _ _ => none
  | .node _ f _ _ _ _ => f

/-- Stop callback of a chain's top node. -/
def stopOf : Chain → Option (Val → Val → Bool)
  | .root _ _ _ => none
  | .node _ _ _ s _ _ => s

/-- Map callback of a chain's top node. -/
def mapOf : Chain → Option (Val → Val → Val)
  | .root _ _ _ => none
  | .node _ _ m _ _ _ => m

/-- The errors thrown by the library (`TypeError`/`RangeError`/`Error`
distinctions collapsed to one enumeration of the distinct messages). -/
inductive RErr where
  | invalidStart
  | invalidEnd
  | invalidEndRange
  | invalidStep
  | zeroStep
  | invalidCount
  | infiniteReverse
  | infiniteReduce
  | infiniteToArray
deriving DecidableEq, Repr

/-- Underlying integer of a `Val` known to be an integer. -/
def intOf : Val → Int
  | .int n => n
  | _ => 0

/-- The state all fields get in the `Range` constructor (before the
chain methods overwrite some of them). -/
def freshSt (cl : Closure) : NState :=
  { currentValue := .int cl.start, index := .int 0, cachedLength := none, preGen := [], origVals := none, genCount := .int 0, isFin := isFiniteV cl.endV }

/-- The `range(start, end, step)` entry point: validation of the three
arguments, resolution of the default step, and construction of the root
`Range`.  `none` for the step models an absent/`null` argument. -/
def mkRange (startV endV : Val) (stepO : Option Val) : Except RErr Chain :=
  if !isSafeInt startV then .error .invalidStart
  else if !(match endV with
            | .int _ => true
            | .inf _ => true
            | _ => false) then .error .invalidEnd
  else if isFiniteV endV && !isSafeInt endV then .error .invalidEndRange
  else
    match stepO with
    | none =>
        let cl : Closure := ⟨intOf startV, endV, if jsGe endV startV then 1 else -1⟩
        .ok (.root cl .fresh (freshSt cl))
    | some stepV =>
        if !isSafeInt stepV then .error .invalidStep
        else if !truthy stepV then .error .zeroStep
        else
          let cl : Closure := ⟨intOf startV, endV, intOf stepV⟩
          .ok (.root cl .fresh (freshSt cl))

/-- `Range.map`. -/
def mapR (μ : Val → Val → Val) (c : Chain) : Chain :=
  .node (clOf c) none (some μ) none (freshSt (clOf c)) c

/-- `Range.filter`. -/
def filterR (φ : Val → Val → Bool) (c : Chain) : Chain :=
  .node (clOf c) (some φ) none none (freshSt (clOf c)) c

/-- `Range.takeWhile`. -/
def takeWhileR (σ : Val → Val → Bool) (c : Chain) : Chain :=
  .node (clOf c) none none (some σ) (freshSt (clOf c)) c

/-- The stop callback `(_, index) => index <= count` installed by `take`. -/
def takePred (countV : Val) : Val → Val → Bool := fun _ idx => jsLe idx countV

/-- `Range.take`: validation of the count, then `takeWhile` on the index
with the `_isFinite` flag of the returned node forced to `true`. -/
def takeR (countV : Val) (c : Chain) : Except RErr Chain :=
  if !isSafeInt countV || jsLt countV (.int 0) then .error .invalidCount
  else
    let t := takeWhileR (takePred countV) c
    .ok (withSt t { stOf t with isFin := true })

/-- The pre-generation loop of the `length` getter: repeatedly calls
`getNextValue`, collecting the non-done iterations with their indices,
until a done iteration (which is discarded). -/
def lengthLoop : Nat → Chain → Val → Option (List (Iter × Val) × Chain)
  | 0, _, _ => none
  | fuel + 1, c, idx =>
      match getNextValue fuel c idx with
      | none => none
      | some (it, ni, c') =>
          if it.done then some ([], c')
          else
            match lengthLoop fuel c' ni with
            | none => none
            | some (l, c'') => some ((it, ni) :: l, c'')

/-- The `length` getter: memoized; infinity for non-finite chains; the
closed formula (or delegation to the parent) when the node has neither a
filter nor a stop callback; otherwise full pre-generation into the
pending buffer. -/
def lengthGet (fuel : Nat) (c : Chain) : Option (Val × Chain) :=
  let st := stOf c
  match st.cachedLength with
  | some l => some (l, c)
  | none =>
      if !st.isFin then
        some (.inf true, withSt c { st with cachedLength := some (.inf true) })
      else if (filterOf c).isNone && (stopOf c).isNone then
        match c with
        | .node cl f m s st' parent =>
            match fuel with
            | 0 => none
            | fuel' + 1 =>
                match lengthGet fuel' parent with
                | none => none
                | some (l, parent') =>
                    some (l, .node cl f m s { st' with cachedLength := some l } parent')
        | .root cl pc st' =>
            let d : Int := intOf cl.endV - cl.start
            let l : Int := Int.fdiv d cl.step + (if Int.tmod d cl.step = 0 then 0 else 1)
            some (.int l, .root cl pc { st' with cachedLength := some (.int l) })
      else
        match lengthLoop fuel c st.index with
        | none => none
        | some (entries, c') =>
            let stA := stOf c'
            let newPre := stA.preGen ++ entries
            let safeLimit := jsSub (.int MAX_SAFE) stA.genCount
            let l := if jsLe (.int (newPre.length : Int)) safeLimit then jsAdd stA.genCount (.int (newPre.length : Int)) else Val.inf true
            some (l, withSt c' { stA with preGen := newPre, cachedLength := some l })

/-- Draining a chain with `next()` calls until the first done iteration,
as the spread operator and `for..of` do; returns the produced values. -/
def toList : Nat → Chain → Option (List Val × Chain)
  | 0, _ => none
  | fuel + 1, c =>
      match rangeNext fuel c with
      | none => none
      | some (it, c') =>
          if it.done then some ([], c')
          else
            match toList fuel c' with
            | none => none
            | some (l, c'') => some (it.value :: l, c'')

/-- The fold of `Range.reduce` (the callback receives the accumulator,
the value, and the node's `_index` after the `next()` call). -/
def reduceLoop : Nat → Chain → Val → (Val → Val → Val → Val) → Option (Val × Chain)
  | 0, _, _, _ => none
  | fuel + 1, c, acc, op =>
      match rangeNext fuel c with
      | none => none
      | some (it, c') =>
          if it.done then some (acc, c')
          else reduceLoop fuel c' (op acc it.value (stOf c').index) op

/-- `Range.reduce`: rejects non-finite sequences, otherwise folds. -/
def reduceR (fuel : Nat) (c : Chain) (init : Val) (op : Val → Val → Val → Val) : Option (Except RErr (Val × Chain)) :=
  if !(stOf c).isFin then some (.error .infiniteReduce)
  else (reduceLoop fuel c init op).map .ok

/-- `Range.toArray`: rejects non-finite sequences, otherwise drains. -/
def toArrayR (fuel : Nat) (c : Chain) : Option (Except RErr (List Val × Chain)) :=
  if !(stOf c).isFin then some (.error .infiniteToArray)
  else (toList fuel c).map .ok

/-- `Range.clone`: clone the parent chain, construct a node with the
same callbacks, copy the traversal state, and for a root that already
produced a value advance a fresh generator once past the current value.
The `_isFinite` flag and `_originalValues` are not copied (they keep
their constructor values), exactly as in the source. -/
def cloneR : Chain → Chain
  | .root cl _ st =>
      let base := freshSt cl
      let st1 := { base with currentValue := st.currentValue, index := st.index }
      let st2 := { st1 with cachedLength := st.cachedLength, preGen := st.preGen, genCount := st.genCount }
      if truthy st.index then
        let r := genNext cl .fresh st2.currentValue
        .root cl r.2.1 { st2 with currentValue := r.2.2 }
      else
        .root cl .fresh st2
  | .node cl f m s st parent =>
      let base := freshSt cl
      .node cl f m s { base with currentValue := st.currentValue, index := st.index, cachedLength := st.cachedLength, preGen := st.preGen, genCount := st.genCount } (cloneR parent)

/-- Buffer entries `[{done: false, value}, index + 1]` built by
`reverse()` from the reversed list of materialized values. -/
def toRevBuf : Nat → List Val → List (Iter × Val)
  | _, [] => []
  | i, v :: r => (⟨false, v⟩, .int ((i : Int) + 1)) :: toRevBuf (i + 1) r

/-- `Range.reverse`: rejects non-finite sequences; for a root
reconstructs an algebraic range with negated step; otherwise
materializes the remaining values of a clone and returns a node over an
empty root pre-loaded with the reversed values. -/
def reverseR (fuel : Nat) (c : Chain) : Option (Except RErr Chain) :=
  let st := stOf c
  if !st.isFin then some (.error .infiniteReverse)
  else
    match c with
    | .root cl _ _ =>
        let newEnd := if !truthy st.index then jsSub st.currentValue (.int cl.step) else st.currentValue
        some (mkRange (jsSub cl.endV (.int cl.step)) newEnd (some (.int (-cl.step))))
    | .node cl _ _ _ _ _ =>
        match toList fuel (cloneR c) with
        | none => none
        | some (values, _) =>
            match mkRange (.int 0) (.int 0) none with
            | .error e => some (.error e)
            | .ok inner =>
                let buf := toRevBuf 0 values.reverse
                let st0 := freshSt cl
                let stR := { st0 with currentValue := cl.endV, preGen := buf, origVals := some buf, cachedLength := some (.int (values.length : Int)) }
                some (.ok (.node cl none none none stR inner))

/-- Decidable equality of `Except` results, for concrete evaluations. -/
instance {e a : Type} [DecidableEq e] [DecidableEq a] : DecidableEq (Except e a) := fun x y =>
  match x, y with
  | .ok u, .ok v => if h : u = v then .isTrue (by rw [h]) else .isFalse (by simp [h])
  | .error u, .error v => if h : u = v then .isTrue (by rw [h]) else .isFalse (by simp [h])
  | .ok _, .error _ => .isFalse (by simp)
  | .error _, .ok _ => .isFalse (by simp)

/-- The error of a failed call, if any (statement convenience). -/
def errOf {a : Type} : Except RErr a → Option RErr
  | .error e => some e
  | .ok _ => none

/-- Values produced by draining a chain (statement convenience). -/
def valsOf (fuel : Nat) (c : Chain) : Option (List Val) :=
  (toList fuel c).map Prod.fst

/-- Calling `next()` a fixed number of times, collecting the iterations
(statement convenience harness). -/
def itersN (fuel : Nat) : Nat → Chain → Option (List Iter × Chain)
  | 0, c => some ([], c)
  | n + 1, c =>
      match rangeNext fuel c with
      | none => none
      | some (it, c') =>
          match itersN fuel n c' with
          | none => none
          | some (l, c'') => some (it :: l, c'')

/-- The root chain built by a successful `range(start, end, step)` call;
the fallback is never reached in the concrete statements that use it. -/
def rngD (a b : Val) (s : Option Val) : Chain :=
  (mkRange a b s).toOption.getD (.root ⟨0, .int 0, 1⟩ .fresh (freshSt ⟨0, .int 0, 1⟩))

/-- One observable `next()` call: some amount of fuel makes it succeed. -/
def StepTo (c : Chain) (it : Iter) (c' : Chain) : Prop :=
  ∃ f, rangeNext f c = some (it, c')

/-- A finite run of `next()` calls with the list of produced iterations. -/
inductive Run : Chain → List Iter → Chain → Prop where
  | nil (c : Chain) : Run c [] c
  | cons {c : Chain} {it : Iter} {c' : Chain} {l : List Iter} {c'' : Chain} : StepTo c it c' → Run c' l c'' → Run c (it :: l) c''

/-- The chain `range(0, 5).takeWhile(v => v !== 2)` used to exhibit the
behavior of a value-based stop predicate. -/
def c7chain : Chain :=
  takeWhileR (fun v _ => match v with | .int 2 => false | _ => true) (rngD (.int 0) (.int 5) none)

/-- A freshly constructed root chain over a closure. -/
def rootFresh (cl : Closure) : Chain := .root cl .fresh (freshSt cl)

/-- A root chain whose generator is suspended after yielding the integer
`v`, with the given index and produced-count ("running" state). -/
def rootAt (cl : Closure) (v : Int) (ix gc : Val) : Chain :=
  .root cl .running { currentValue := .int v, index := ix, cachedLength := none, preGen := [], origVals := none, genCount := gc, isFin := isFiniteV cl.endV }

/-- The arithmetic progression `start + k * step` the specification
promises. -/
def prog (cl : Closure) (k : Nat) : Int := cl.start + k * cl.step

/-- The specification's termination condition, in its own words: the k-th
progression value has passed `end` in the direction of `step` (`>= end`
for positive step, `<= end` for negative step); never true for an
infinite end. -/
def progPassedB (cl : Closure) (k : Nat) : Bool :=
  match cl.endV with
  | .int e => if 0 < cl.step then decide (e ≤ prog cl k) else decide (prog cl k ≤ e)
  | _ => false

/-- The k-th progression value is far enough from the safe-integer bound
that the emitter's overflow clamp cannot fire when advancing from it. -/
abbrev clampFree (cl : Closure) (k : Nat) : Prop :=
  |prog cl k| ≤ MAX_SAFE - |cl.step|

/-- The iterations of the first `n` progression values. -/
def progIters (cl : Closure) (n : Nat) : List Iter :=
  (List.range n).map fun k => ⟨false, .int (prog cl k)⟩

/-- Chains built only from `map`/`filter` nodes (no stop callback) over
a root with a finite end bound. -/
def MF : Chain → Prop
  | .root cl _ _ => isFiniteV cl.endV = true
  | .node _ _ _ s _ p => s.isNone = true ∧ MF p

/-- Every pending buffer along the chain is empty (true for any chain
reached from a freshly built one by `next()` calls alone). -/
def BufEmpty : Chain → Prop
  | .root _ _ st => st.preGen = []
  | .node _ _ _ _ st p => st.preGen = [] ∧ BufEmpty p

/-- The root generator of the chain has returned. -/
def RootFin : Chain → Prop
  | .root _ pc _ => pc = .finished
  | .node _ _ _ _ _ p => RootFin p

/-- Concrete witness chain `range(0, 1).map(v => v)` and its states after
one, two, three and four `next()` calls. -/
def w10 : Chain := mapR (fun v _ => v) (rngD (.int 0) (.int 1) none)

/-- One `next()` call on a chain, keeping only the chain (witness helper). -/
def stepD (c : Chain) : Chain :=
  match rangeNext 10 c with
  | some r => r.2
  | none => c

/-- State of the witness chain after one call. -/
def w10a : Chain := stepD w10

/-- State of the witness chain after two calls. -/
def w10b : Chain := stepD w10a

/-- State of the witness chain after three calls. -/
def w10c : Chain := stepD w10b

/-- State of the witness chain after four calls. -/
def w10d : Chain := stepD w10c

/-- The non-done iterations carrying the given values. -/
def valIters (vs : List Val) : List Iter := vs.map fun v => ⟨false, v⟩

/-- From this state every `next()` call (after any run) returns the done
iteration with `undefined` value, and a next call always exists. -/
def DoneForever (c : Chain) : Prop :=
  ∀ l c2, Run c l c2 → (∀ it ∈ l, it = doneIter) ∧ ∃ c3, StepTo c2 doneIter c3

/-- The chain produces exactly the values `vs` and then reports done
forever. -/
def Produces (c : Chain) (vs : List Val) : Prop :=
  ∃ c', Run c (valIters vs) c' ∧ DoneForever c'

/-- The chain produces the infinite stream `g` (every prefix is
produced by a run). -/
def InfProduces (c : Chain) (g : Nat → Val) : Prop :=
  ∀ n, ∃ c', Run c (valIters ((List.range n).map g)) c'

/-- The node index is at least `n` (or saturated), so the `take` stop
predicate fails for every later candidate. -/
def idxBig (idx : Val) (n : Int) : Prop :=
  (∃ i : Int, idx = .int i ∧ n ≤ i) ∨ idx = .inf true

/-- Invariant of a `take` node that has stopped producing: index past the
count (or the parent itself is done forever), with a parent that is
either a finite producer or an infinite stream. -/
def TakeDone (c : Chain) : Prop :=
  ∃ cl n st parent, c = .node cl none none (some (takePred (.int n))) st parent ∧ st.preGen = [] ∧ (idxBig st.index n ∨ DoneForever parent) ∧ ((∃ ws, Produces parent ws) ∨ (∃ g, InfProduces parent g))

/-- The buffer entries the length pre-generation collects: the values
with their one-based indices counted from `i`. -/
def entriesFrom : List Val → Int → List (Iter × Val)
  | [], _ => []
  | v :: r, i => (⟨false, v⟩, .int (i + 1)) :: entriesFrom r (i + 1)

/-- A root state from which every future call reports done: the
generator returned, or the next advance/first check ends it. -/
def RootDF (c : Chain) : Prop :=
  ∃ cl pc st, c = .root cl pc st ∧ st.preGen = [] ∧ (pc = .finished ∨ (pc = .running ∧ isEnded cl (advanceCV cl st.currentValue) = true) ∨ (pc = .fresh ∧ isEnded cl st.currentValue = true))

/-- Witness chain `range(0, 2)` and its states after one and two calls. -/
def w2 : Chain := rngD (.int 0) (.int 2) none

/-- State of `w2` after one call. -/
def w2a : Chain := stepD w2

/-- State of `w2` after two calls. -/
def w2b : Chain := stepD w2a

/-- Closure of the infinite witness `range(MAX_SAFE, Infinity, 1)`. -/
def clInf : Closure := ⟨MAX_SAFE, .inf true, 1⟩

/-- Root state of the infinite witness once the clamp has latched the
current value at `Infinity`. -/
def stInfAt (ix gc : Val) : NState :=
  { currentValue := .inf true, index := ix, cachedLength := none, preGen := [], origVals := none, genCount := gc, isFin := false }

/-- The infinite witness chain `range(MAX_SAFE, Infinity, 1)`. -/
def wInf : Chain := rngD (.int MAX_SAFE) (.inf true) (some (.int 1))

/-- State of `wInf` after one call. -/
def wInfa : Chain := stepD wInf

/-- The stream `wInf` produces: its start, then `Infinity` forever. -/
def gInf : Nat → Val := fun j => if j = 0 then .int MAX_SAFE else .inf true

/-- The take node `range(0, 2).take(2)` used as a witness. -/
def wT2 : Chain := (takeR (.int 2) w2).toOption.getD w2

/-- The take node `range(MAX_SAFE, Infinity, 1).take(3)` used as a witness. -/
def wTInf : Chain := (takeR (.int 3) wInf).toOption.getD wInf

/-- Two root chains in lockstep: same program counter and current value,
empty buffers; their closures may differ only in `start`. -/
def RRel (cl cl2 : Closure) (c1 c2 : Chain) : Prop :=
  ∃ pc st1 st2, c1 = .root cl pc st1 ∧ c2 = .root cl2 pc st2 ∧ st1.preGen = [] ∧ st2.preGen = [] ∧ st1.currentValue = st2.currentValue


/-- A plain (callback-free) node over a finished root: every later call reports done. -/
def PlainDF (c : Chain) : Prop :=
  ∃ cl st parent, c = .node cl none none none st parent ∧ st.preGen = [] ∧ RootDF parent

/-- Output simulation between a chain and the chain left behind by a `length` read: identical roots up to the memoized length, identical stop-free nodes, a node whose pending buffer replays exactly the pre-generation trace of the live side, or two chains that are both done forever. The `true` level excludes the buffer case (used below the `next()` buffer check). -/
inductive LSim : Bool → Chain → Chain → Prop where
  | root (cl : Closure) (pc : GenPC) (st1 st2 : NState) {g : Bool} (h1 : st1.preGen = []) (h2 : st2.preGen = []) (hix : st1.index = st2.index) (hcv : st1.currentValue = st2.currentValue) : LSim g (.root cl pc st1) (.root cl pc st2)
  | df {c1 c2 : Chain} {g : Bool} (h1 : MF c1) (h2 : BufEmpty c1) (h3 : RootFin c1) (h4 : MF c2) (h5 : BufEmpty c2) (h6 : RootFin c2) : LSim g c1 c2
  | lift (cl : Closure) (fo : Option (Val → Val → Bool)) (mo : Option (Val → Val → Val)) (st1 st2 : NState) {p1 p2 : Chain} {g : Bool} (hb1 : st1.preGen = []) (hb2 : st2.preGen = []) (hix : st1.index = st2.index) (hp : LSim false p1 p2) : LSim g (.node cl fo mo none st1 p1) (.node cl fo mo none st2 p2)
  | buf (cl : Closure) (fo : Option (Val → Val → Bool)) (mo : Option (Val → Val → Val)) (stL stB stX : NState) {pL pD : Chain} (entries : List (Iter × Val)) (F : Nat) (hbL : stL.preGen = []) (hbB : stB.preGen = entries) (hix : stB.index = stL.index) (hmf : MF pL) (hbe : BufEmpty pL) (hloop : lengthLoop F (.node cl fo mo none stX pL) stL.index = some (entries, .node cl fo mo none stX pD)) : LSim false (.node cl fo mo none stL pL) (.node cl fo mo none stB pD)

/-- Witness chain `range(0, 3).filter(v => v !== 1)` whose length read pre-generates into the buffer. -/
def w7c : Chain := filterR (fun v _ => !decide (v = Val.int 1)) (rngD (.int 0) (.int 3) none)

-- THEOREMS BELOW, DEFINITIONS ABOVE

theorem jsCore_mono {f : Nat} {m : Bool} {c : Chain} {ci : Val} {r : Iter × Val × Chain} (h : jsCore f m c ci = some r) : jsCore (f + 1) m c ci = some r := by
  induction f generalizing m c ci r with
  | zero => simp [jsCore] at h
  | succ f ih =>
    match m with
    | true =>
      rw [jsCore.eq_def] at h ⊢
      dsimp only at h ⊢
      rcases hp : (stOf c).preGen with _ | ⟨⟨it, ni⟩, rest⟩ <;> rw [hp] at h
      · rcases hg : jsCore f false c (stOf c).index with _ | ⟨⟨it, ni, c'⟩⟩ <;> rw [hg] at h
        · simp at h
        · rw [ih hg]; exact h
      · exact h
    | false =>
      rw [jsCore.eq_def] at h ⊢
      match c with
      | .root cl pc st => exact h
      | .node cl fo mo so st parent =>
        dsimp only at h ⊢
        rcases hg : jsCore f true parent (.int 0) with _ | ⟨⟨it, ni2, parent2⟩⟩ <;> rw [hg] at h
        · simp at h
        · rw [ih hg]
          dsimp only at h ⊢
          by_cases hd : it.done = true
          · simp only [hd, if_true] at h ⊢; exact h
          · simp only [hd, Bool.false_eq_true, if_false] at h ⊢
            rcases fo with _ | φ
            · simpa using h
            · by_cases hφ : φ it.value (bumpIndex ci) = true
              · simp only [hφ, Bool.not_true, Bool.false_eq_true, if_false] at h ⊢
                exact h
              · simp only [eq_false_of_ne_true hφ, Bool.not_false, if_true] at h ⊢
                exact ih h

theorem jsCore_mono_le {f f' : Nat} {m : Bool} {c : Chain} {ci : Val} {r : Iter × Val × Chain} (hle : f ≤ f') (h : jsCore f m c ci = some r) : jsCore f' m c ci = some r := by
  induction hle with
  | refl => exact h
  | step _ ih => exact jsCore_mono ih
theorem rangeNext_mono_le {f f' : Nat} {c : Chain} {r : Iter × Chain} (hle : f ≤ f') (h : rangeNext f c = some r) : rangeNext f' c = some r := by
  unfold rangeNext at h ⊢
  rcases hg : jsCore f true c (.int 0) with _ | x <;> rw [hg] at h
  · simp at h
  · rw [jsCore_mono_le hle hg]; exact h

theorem getNextValue_mono_le {f f' : Nat} {c : Chain} {ci : Val} {r : Iter × Val × Chain} (hle : f ≤ f') (h : getNextValue f c ci = some r) : getNextValue f' c ci = some r :=
  jsCore_mono_le hle h

theorem toList_mono_le {f f' : Nat} {c : Chain} {r : List Val × Chain} (hle : f ≤ f') (h : toList f c = some r) : toList f' c = some r := by
  induction f generalizing c r f' with
  | zero => simp [toList] at h
  | succ f ih =>
    match f', hle with
    | f' + 1, hle =>
      have hle' : f ≤ f' := Nat.succ_le_succ_iff.mp hle
      rw [toList] at h ⊢
      rcases hg : rangeNext f c with _ | ⟨⟨it, c'⟩⟩ <;> rw [hg] at h
      · simp at h
      · rw [rangeNext_mono_le hle' hg]
        dsimp only at h ⊢
        by_cases hd : it.done = true
        · simp only [hd, if_true] at h ⊢; exact h
        · simp only [hd, Bool.false_eq_true, if_false] at h ⊢
          rcases hl : toList f c' with _ | ⟨⟨l, c''⟩⟩ <;> rw [hl] at h
          · simp at h
          · rw [ih hle' hl]; exact h

theorem itersN_mono_le {f f' n : Nat} {c : Chain} {r : List Iter × Chain} (hle : f ≤ f') (h : itersN f n c = some r) : itersN f' n c = some r := by
  induction n generalizing c r with
  | zero => simpa [itersN] using h
  | succ n ih =>
    rw [itersN] at h ⊢
    rcases hg : rangeNext f c with _ | ⟨⟨it, c'⟩⟩ <;> rw [hg] at h
    · simp at h
    · rw [rangeNext_mono_le hle hg]
      dsimp only at h ⊢
      rcases hl : itersN f n c' with _ | ⟨⟨l, c''⟩⟩ <;> rw [hl] at h
      · simp at h
      · rw [ih hl]; exact h

theorem lengthLoop_mono_le {f f' : Nat} {c : Chain} {idx : Val} {r : List (Iter × Val) × Chain} (hle : f ≤ f') (h : lengthLoop f c idx = some r) : lengthLoop f' c idx = some r := by
  induction f generalizing c idx r f' with
  | zero => simp [lengthLoop] at h
  | succ f ih =>
    match f', hle with
    | f' + 1, hle =>
      have hle' : f ≤ f' := Nat.succ_le_succ_iff.mp hle
      rw [lengthLoop] at h ⊢
      rcases hg : getNextValue f c idx with _ | ⟨⟨it, ni, c'⟩⟩ <;> rw [hg] at h
      · simp at h
      · rw [getNextValue_mono_le hle' hg]
        dsimp only at h ⊢
        by_cases hd : it.done = true
        · simp only [hd, if_true] at h ⊢; exact h
        · simp only [hd, Bool.false_eq_true, if_false] at h ⊢
          rcases hl : lengthLoop f c' ni with _ | ⟨⟨l, c''⟩⟩ <;> rw [hl] at h
          · simp at h
          · rw [ih hle' hl]; exact h

theorem lengthGet_mono_le {f f' : Nat} {c : Chain} {r : Val × Chain} (hle : f ≤ f') (h : lengthGet f c = some r) : lengthGet f' c = some r := by
  induction f generalizing c r f' with
  | zero =>
    rw [lengthGet.eq_def] at h ⊢
    dsimp only at h ⊢
    rcases hm : (stOf c).cachedLength with _ | l <;> rw [hm] at h
    · dsimp only at h ⊢
      by_cases hfin : (stOf c).isFin = true
      · simp only [hfin, Bool.not_true, Bool.false_eq_true, if_false] at h ⊢
        by_cases hfs : ((filterOf c).isNone && (stopOf c).isNone) = true
        · simp only [hfs, if_true] at h ⊢
          match c with
          | .node cl fo mo so st parent => simp at h
          | .root cl pc st => exact h
        · simp only [eq_false_of_ne_true hfs, Bool.false_eq_true, if_false] at h ⊢
          simp [lengthLoop] at h
      · simp only [eq_false_of_ne_true hfin, Bool.not_false, if_true] at h ⊢
        exact h
    · exact h
  | succ f ih =>
    match f', hle with
    | f' + 1, hle =>
      have hle' : f ≤ f' := Nat.succ_le_succ_iff.mp hle
      rw [lengthGet.eq_def] at h ⊢
      dsimp only at h ⊢
      rcases hm : (stOf c).cachedLength with _ | l <;> rw [hm] at h
      · dsimp only at h ⊢
        by_cases hfin : (stOf c).isFin = true
        · simp only [hfin, Bool.not_true, Bool.false_eq_true, if_false] at h ⊢
          by_cases hfs : ((filterOf c).isNone && (stopOf c).isNone) = true
          · simp only [hfs, if_true] at h ⊢
            match c with
            | .node cl fo mo so st parent =>
              dsimp only at h ⊢
              rcases hp : lengthGet f parent with _ | ⟨⟨l, parent'⟩⟩ <;> rw [hp] at h
              · simp at h
              · rw [ih hle' hp]; exact h
            | .root cl pc st => exact h
          · simp only [eq_false_of_ne_true hfs, Bool.false_eq_true, if_false] at h ⊢
            rcases hl : lengthLoop (f + 1) c (stOf c).index with _ | ⟨⟨l, c'⟩⟩ <;> rw [hl] at h
            · simp at h
            · rw [lengthLoop_mono_le (Nat.succ_le_succ hle') hl]; exact h
        · simp only [eq_false_of_ne_true hfin, Bool.not_false, if_true] at h ⊢
          exact h
      · exact h

theorem stepTo_det {c : Chain} {it it2 : Iter} {c' c2 : Chain} (h1 : StepTo c it c') (h2 : StepTo c it2 c2) : it = it2 ∧ c' = c2 := by
  obtain ⟨f1, h1⟩ := h1
  obtain ⟨f2, h2⟩ := h2
  have e1 := rangeNext_mono_le (Nat.le_max_left f1 f2) h1
  have e2 := rangeNext_mono_le (Nat.le_max_right f1 f2) h2
  rw [e1] at e2
  exact ⟨congrArg Prod.fst (Option.some.inj e2), congrArg Prod.snd (Option.some.inj e2)⟩

theorem run_det {c : Chain} {l l2 : List Iter} {c' c2 : Chain} (h1 : Run c l c') (h2 : Run c l2 c2) (hlen : l.length = l2.length) : l = l2 ∧ c' = c2 := by
  induction h1 generalizing l2 c2 with
  | nil c =>
    cases h2 with
    | nil => exact ⟨rfl, rfl⟩
    | cons hs hr => simp at hlen
  | cons hs hr ih =>
    cases h2 with
    | nil => simp at hlen
    | cons hs2 hr2 =>
      obtain ⟨hit, hc⟩ := stepTo_det hs hs2
      subst hit; subst hc
      obtain ⟨hl, hc'⟩ := ih hr2 (by simpa using hlen)
      exact ⟨by rw [hl], hc'⟩

theorem itersN_run {f n : Nat} {c : Chain} {l : List Iter} {c' : Chain} (h : itersN f n c = some (l, c')) : Run c l c' := by
  induction n generalizing c l c' with
  | zero =>
    rw [itersN] at h
    obtain ⟨h1, h2⟩ := Prod.mk.injEq .. ▸ Option.some.inj h
    subst h1; subst h2; exact Run.nil c
  | succ n ih =>
    rw [itersN] at h
    rcases hg : rangeNext f c with _ | ⟨⟨it, cm⟩⟩ <;> rw [hg] at h
    · simp at h
    · dsimp only at h
      rcases hl : itersN f n cm with _ | ⟨⟨lm, c''⟩⟩ <;> rw [hl] at h
      · simp at h
      · obtain ⟨h1, h2⟩ := Prod.mk.injEq .. ▸ Option.some.inj h
        subst h1; subst h2
        exact Run.cons ⟨f, hg⟩ (ih hl)
/-- C3: the claim says the `length` property is never negative; the code
computes `range(0, 9, -3).length` by the closed root formula and returns
`-3`, a negative number, even though that sequence produces no values.
This theorem evaluates the embedded code at the failing input. -/
theorem C3_theorem : (lengthGet 1 (rngD (.int 0) (.int 9) (some (.int (-3))))).map Prod.fst = some (Val.int (-3)) ∧ (-3 : Int) < 0 ∧ valsOf 10 (rngD (.int 0) (.int 9) (some (.int (-3)))) = some [] := by
  exact ⟨by decide, by decide, by decide⟩

/-- C4: the claim says that once a `takeWhile` predicate returns false the
sequence is terminated permanently and the predicate is not retried; in the
code the failed stop is not latched: on `range(0, 5).takeWhile(v => v !== 2)`
the third `next()` reports done (candidate `2` fails), but the fourth
`next()` pulls the next candidate `3`, retries the predicate, and yields it. -/
theorem C4_theorem : (itersN 20 4 c7chain).map Prod.fst = some [⟨false, .int 0⟩, ⟨false, .int 1⟩, ⟨true, .undef⟩, ⟨false, .int 3⟩] := by decide

/-- C6: the claim says `clone()` at any consumption point (including full
consumption) yields exactly the remaining values; after `range(0, 2)` is
consumed to its done iteration (`_currentValue` is then `undefined`), the
clone advances a fresh emitter past `undefined` and its first `next()`
yields `{done: false, value: NaN}` forever, while the original correctly
stays done.  This theorem evaluates the embedded code at that state. -/
theorem C6_theorem : (itersN 20 3 (rngD (.int 0) (.int 2) none)).map (fun r => ((rangeNext 20 (cloneR r.2)).map Prod.fst, (rangeNext 20 r.2).map Prod.fst)) = some (some ⟨false, .nan⟩, some doneIter) := by decide

/-- C8: the claim says reversing a fresh finite root yields exactly the
original values in reverse order even when the step does not divide
`end - start`; the code rebuilds `range(end - step, start - step, -step)`,
so `range(0, 10, 3)` (values `[0, 3, 6, 9]`) reverses to `range(7, -3, -3)`
which yields `[7, 4, 1, -2]`, not `[9, 6, 3, 0]`. -/
theorem C8_theorem : valsOf 100 (rngD (.int 0) (.int 10) (some (.int 3))) = some [.int 0, .int 3, .int 6, .int 9] ∧ (reverseR 100 (rngD (.int 0) (.int 10) (some (.int 3)))).map (fun r => r.map (valsOf 100)) = some (.ok (some [.int 7, .int 4, .int 1, .int (-2)])) ∧ [Val.int 7, Val.int 4, Val.int 1, Val.int (-2)] ≠ List.reverse [Val.int 0, Val.int 3, Val.int 6, Val.int 9] := by
  exact ⟨by decide, by decide, by decide⟩

/-- C5 counterexample: `range(0, Infinity).take(2)` has a non-finite end
bound in its closure, yet `toArray()` succeeds with `[0, 1]` instead of
raising the infinite-export error, because `take` forces the node's
`_isFinite` flag to true. -/
theorem C5_counterexample : (takeR (.int 2) (rngD (.int 0) (.inf true) none)).map (fun t => ((clOf t).endV, (toArrayR 100 t).map (fun r => r.map Prod.fst))) = .ok (.inf true, some (.ok [.int 0, .int 1])) := by decide

/-- C5 amended: for every sequence node whose `_isFinite` flag is false
(end bound not finite and not overridden by `take`), `reverse`, `reduce`
and `toArray` all fail synchronously with their respective
infinite-operation errors. -/
theorem C5_theorem (c : Chain) (f : Nat) (i : Val) (op : Val → Val → Val → Val) (h : (stOf c).isFin = false) : reverseR f c = some (.error .infiniteReverse) ∧ reduceR f c i op = some (.error .infiniteReduce) ∧ toArrayR f c = some (.error .infiniteToArray) := by
  refine ⟨?_, ?_, ?_⟩
  · rw [reverseR.eq_def]; simp [h]
  · rw [reduceR.eq_def]; simp [h]
  · rw [toArrayR.eq_def]; simp [h]

/-- C5 witness: the amended statement applied to `range(0, Infinity)`. -/
theorem C5_theorem_witness : (stOf (rngD (.int 0) (.inf true) none)).isFin = false ∧ (reverseR 3 (rngD (.int 0) (.inf true) none) = some (.error .infiniteReverse) ∧ reduceR 3 (rngD (.int 0) (.inf true) none) (.int 0) (fun a _ _ => a) = some (.error .infiniteReduce) ∧ toArrayR 3 (rngD (.int 0) (.inf true) none) = some (.error .infiniteToArray)) :=
  ⟨by decide, C5_theorem (rngD (.int 0) (.inf true) none) 3 (.int 0) (fun a _ _ => a) (by decide)⟩

/-- C1 counterexample: the claim says iteration yields exactly the
arithmetic progression `start, start + step, ...`; starting at
`Number.MAX_SAFE_INTEGER` with step `1` and an infinite end, the second
`next()` yields `Infinity` (the emitter's overflow clamp, asserted by the
repository's own tests), not the progression value `MAX_SAFE + 1`. -/
theorem C1_counterexample : (itersN 10 2 (rngD (.int MAX_SAFE) (.inf true) (some (.int 1)))).map Prod.fst = some [⟨false, .int MAX_SAFE⟩, ⟨false, .inf true⟩] ∧ Val.inf true ≠ Val.int (MAX_SAFE + 1) := by
  exact ⟨by decide, by decide⟩

/-- C7 counterexample: on `range(0, 5).takeWhile(v => v !== 2)` the first
three `next()` calls yield `0`, `1`, done; but if `length` is read first
(pre-generating into the buffer and consuming the stop-failing candidate
`2`), the third `next()` yields `3` instead of done - reading `length`
altered the subsequent `next()` output. -/
theorem C7_counterexample : (itersN 60 3 c7chain).map Prod.fst = some [⟨false, .int 0⟩, ⟨false, .int 1⟩, doneIter] ∧ (lengthGet 60 c7chain).map (fun r => (itersN 60 3 r.2).map Prod.fst) = some (some [⟨false, .int 0⟩, ⟨false, .int 1⟩, ⟨false, .int 3⟩]) := by
  exact ⟨by decide, by decide⟩

/-- C9 counterexample: after `range(0, 2)` has been consumed through its
done iteration (a legitimate full-consumption point, as reached by a
spread), the remaining output is empty, but `reverse()` does not return a
sequence at all: `_currentValue` is `undefined`, so the rebuilt range is
`range(1, undefined, -1)` and the end-validation throws, hence
`reverse().reverse()` cannot reproduce the (empty) remaining output. -/
theorem C9_counterexample : (itersN 20 3 (rngD (.int 0) (.int 2) none)).map (fun r => (r.1.map Iter.done, (reverseR 100 r.2).map errOf)) = some ([false, false, true], some (some .invalidEnd)) := by decide
theorem run_append {c : Chain} {l1 : List Iter} {c' : Chain} {l2 : List Iter} {c'' : Chain} (h1 : Run c l1 c') (h2 : Run c' l2 c'') : Run c (l1 ++ l2) c'' := by
  induction h1 with
  | nil => exact h2
  | cons hs hr ih => exact Run.cons hs (ih h2)

theorem isEnded_int_eq (cl : Closure) (k : Nat) : isEnded cl (.int (prog cl k)) = progPassedB cl k := by
  rcases he : cl.endV with e | b | _ | _ <;> simp [isEnded, progPassedB, isFiniteV, he, jsGe, jsLe]

theorem clampFree_cond {cl : Closure} {k : Nat} (h : clampFree cl k) : jsLt (.int (MAX_SAFE - |cl.step|)) (jsAbs (.int (prog cl k))) = false := by
  simp only [jsAbs, jsLt, decide_eq_false_iff_not, not_lt]
  exact h

theorem rangeNext_rootFresh_yield (cl : Closure) (hend : isEnded cl (.int cl.start) = false) : rangeNext 2 (rootFresh cl) = some (⟨false, .int cl.start⟩, rootAt cl cl.start (.int 1) (.int 1)) := by
  simp [rangeNext, jsCore, rootFresh, rootAt, freshSt, stOf, withSt, genNext, hend, bumpIndex, jsLt, MAX_SAFE, jsAdd]

theorem rangeNext_rootFresh_done (cl : Closure) (hend : isEnded cl (.int cl.start) = true) : rangeNext 2 (rootFresh cl) = some (doneIter, .root cl .finished { currentValue := .undef, index := .int 1, cachedLength := none, preGen := [], origVals := none, genCount := .int 1, isFin := isFiniteV cl.endV }) := by
  simp [rangeNext, jsCore, rootFresh, freshSt, stOf, withSt, genNext, hend, doneIter, bumpIndex, jsLt, jsAdd, MAX_SAFE]

theorem rangeNext_rootAt_yield (cl : Closure) (v : Int) (ix gc : Val) (hcl : jsLt (.int (MAX_SAFE - |cl.step|)) (jsAbs (.int v)) = false) (hend : isEnded cl (.int (v + cl.step)) = false) : rangeNext 2 (rootAt cl v ix gc) = some (⟨false, .int (v + cl.step)⟩, rootAt cl (v + cl.step) (bumpIndex ix) (bumpIndex gc)) := by
  simp [rangeNext, jsCore, rootAt, stOf, withSt, genNext, advanceCV, hcl, hend, jsAdd]

theorem rangeNext_rootAt_done (cl : Closure) (v : Int) (ix gc : Val) (hcl : jsLt (.int (MAX_SAFE - |cl.step|)) (jsAbs (.int v)) = false) (hend : isEnded cl (.int (v + cl.step)) = true) : rangeNext 2 (rootAt cl v ix gc) = some (doneIter, .root cl .finished { currentValue := .undef, index := bumpIndex ix, cachedLength := none, preGen := [], origVals := none, genCount := bumpIndex gc, isFin := isFiniteV cl.endV }) := by
  simp [rangeNext, jsCore, rootAt, stOf, withSt, genNext, advanceCV, hcl, hend, jsAdd, doneIter]

theorem C1_run (cl : Closure) (n : Nat) (hnp : ∀ k, k ≤ n → progPassedB cl k = false) (hcf : ∀ k, k < n → clampFree cl k) : ∃ ix gc, Run (rootFresh cl) (progIters cl (n + 1)) (rootAt cl (prog cl n) ix gc) := by
  induction n with
  | zero =>
    refine ⟨.int 1, .int 1, ?_⟩
    have h0 : isEnded cl (.int cl.start) = false := by
      have := hnp 0 (Nat.le_refl 0)
      have he := isEnded_int_eq cl 0
      rw [this] at he
      simpa [prog] using he
    have hs := rangeNext_rootFresh_yield cl h0
    have : prog cl 0 = cl.start := by simp [prog]
    have h1 : progIters cl 1 = [⟨false, .int (prog cl 0)⟩] := rfl
    rw [h1, this]
    exact Run.cons ⟨2, hs⟩ (Run.nil _)
  | succ n ih =>
    obtain ⟨ix, gc, hrun⟩ := ih (fun k hk => hnp k (Nat.le_succ_of_le hk)) (fun k hk => hcf k (Nat.lt_succ_of_lt hk))
    refine ⟨bumpIndex ix, bumpIndex gc, ?_⟩
    have hstep : prog cl n + cl.step = prog cl (n + 1) := by
      simp [prog]; ring
    have hend : isEnded cl (.int (prog cl n + cl.step)) = false := by
      rw [hstep, isEnded_int_eq]
      exact hnp (n + 1) (Nat.le_refl _)
    have hs := rangeNext_rootAt_yield cl (prog cl n) ix gc (clampFree_cond (hcf n (Nat.lt_succ_self n))) hend
    rw [hstep] at hs
    have : progIters cl (n + 1 + 1) = progIters cl (n + 1) ++ [⟨false, .int (prog cl (n + 1))⟩] := by
      simp [progIters, List.range_succ]
    rw [this]
    exact run_append hrun (Run.cons ⟨2, hs⟩ (Run.nil _))
theorem mkRange_ok_shape {sv ev : Val} {so : Option Val} {c : Chain} (h : mkRange sv ev so = .ok c) : ∃ cl, c = rootFresh cl := by
  unfold mkRange at h
  split at h
  · exact absurd h (by simp)
  · split at h
    · exact absurd h (by simp)
    · split at h
      · exact absurd h (by simp)
      · rcases so with _ | stepV
        · exact ⟨_, (Except.ok.inj h).symm⟩
        · dsimp only at h
          split at h
          · exact absurd h (by simp)
          · split at h
            · exact absurd h (by simp)
            · exact ⟨_, (Except.ok.inj h).symm⟩

/-- C1 amended: for a validly-constructed `range(start, end, step)`, as
long as the progression values stay within the clamp-free zone
(each |value| at most `MAX_SAFE - |step|`, so the emitter's overflow
clamp never fires) and have not passed `end` in the direction of `step`,
iteration yields exactly the arithmetic progression
`start, start + step, ...`; the call after the last in-range value
reports done exactly when the next progression value has passed `end`
(never, for an infinite end, so such a sequence never terminates).  The
clamp proviso is forced by the counterexample.  The three concrete
examples of the claim hold as stated. -/
theorem C1_theorem (sv ev : Val) (so : Option Val) (c0 : Chain) (n : Nat) (hmk : mkRange sv ev so = .ok c0) (hnp : ∀ k, k < n → progPassedB (clOf c0) k = false) (hcf : ∀ k, k < n → clampFree (clOf c0) k) : (∃ cn, Run c0 (progIters (clOf c0) n) cn ∧ (progPassedB (clOf c0) n = true → ∃ c', StepTo cn doneIter c') ∧ (progPassedB (clOf c0) n = false → ∃ c', StepTo cn ⟨false, .int (prog (clOf c0) n)⟩ c')) ∧ valsOf 100 (rngD (.int 0) (.int 10) (some (.int 3))) = some [.int 0, .int 3, .int 6, .int 9] ∧ valsOf 100 (rngD (.int 10) (.int 0) (some (.int (-3)))) = some [.int 10, .int 7, .int 4, .int 1] ∧ valsOf 100 (rngD (.int 0) (.int 9) (some (.int (-3)))) = some [] := by
  obtain ⟨cl, rfl⟩ := mkRange_ok_shape hmk
  have hclOf : clOf (rootFresh cl) = cl := rfl
  simp only [hclOf] at hnp hcf ⊢
  refine ⟨?_, by decide, by decide, by decide⟩
  match n with
  | 0 =>
    refine ⟨rootFresh cl, Run.nil _, ?_, ?_⟩
    · intro hp
      have hend : isEnded cl (.int cl.start) = true := by
        have := isEnded_int_eq cl 0
        rw [hp] at this
        simpa [prog] using this
      exact ⟨_, 2, rangeNext_rootFresh_done cl hend⟩
    · intro hp
      have hend : isEnded cl (.int cl.start) = false := by
        have := isEnded_int_eq cl 0
        rw [hp] at this
        simpa [prog] using this
      have h0 : prog cl 0 = cl.start := by simp [prog]
      rw [h0]
      exact ⟨rootAt cl cl.start (.int 1) (.int 1), 2, rangeNext_rootFresh_yield cl hend⟩
  | m + 1 =>
    obtain ⟨ix, gc, hrun⟩ := C1_run cl m (fun k hk => hnp k (Nat.lt_succ_of_le hk)) (fun k hk => hcf k (Nat.lt_succ_of_lt hk))
    refine ⟨_, hrun, ?_, ?_⟩
    · intro hp
      have hstep : prog cl m + cl.step = prog cl (m + 1) := by
        simp [prog]; ring
      have hend : isEnded cl (.int (prog cl m + cl.step)) = true := by
        rw [hstep, isEnded_int_eq]; exact hp
      exact ⟨_, 2, rangeNext_rootAt_done cl (prog cl m) ix gc (clampFree_cond (hcf m (Nat.lt_succ_self m))) hend⟩
    · intro hp
      have hstep : prog cl m + cl.step = prog cl (m + 1) := by
        simp [prog]; ring
      have hend : isEnded cl (.int (prog cl m + cl.step)) = false := by
        rw [hstep, isEnded_int_eq]; exact hp
      rw [← hstep]
      exact ⟨rootAt cl (prog cl m + cl.step) (bumpIndex ix) (bumpIndex gc), 2, rangeNext_rootAt_yield cl (prog cl m) ix gc (clampFree_cond (hcf m (Nat.lt_succ_self m))) hend⟩

/-- C1 witness: the amended statement applied to `range(0, 10, 3)` with
`n = 4`: it yields `[0, 3, 6, 9]` and then reports done. -/
theorem C1_theorem_witness : (mkRange (.int 0) (.int 10) (some (.int 3)) = .ok (rngD (.int 0) (.int 10) (some (.int 3)))) ∧ (∀ k, k < 4 → progPassedB (clOf (rngD (.int 0) (.int 10) (some (.int 3)))) k = false) ∧ (∀ k, k < 4 → clampFree (clOf (rngD (.int 0) (.int 10) (some (.int 3)))) k) ∧ ((∃ cn, Run (rngD (.int 0) (.int 10) (some (.int 3))) (progIters (clOf (rngD (.int 0) (.int 10) (some (.int 3)))) 4) cn ∧ (progPassedB (clOf (rngD (.int 0) (.int 10) (some (.int 3)))) 4 = true → ∃ c', StepTo cn doneIter c') ∧ (progPassedB (clOf (rngD (.int 0) (.int 10) (some (.int 3)))) 4 = false → ∃ c', StepTo cn ⟨false, .int (prog (clOf (rngD (.int 0) (.int 10) (some (.int 3)))) 4)⟩ c')) ∧ valsOf 100 (rngD (.int 0) (.int 10) (some (.int 3))) = some [.int 0, .int 3, .int 6, .int 9] ∧ valsOf 100 (rngD (.int 10) (.int 0) (some (.int (-3)))) = some [.int 10, .int 7, .int 4, .int 1] ∧ valsOf 100 (rngD (.int 0) (.int 9) (some (.int (-3)))) = some []) :=
  ⟨rfl, by decide, by decide, C1_theorem (.int 0) (.int 10) (some (.int 3)) (rngD (.int 0) (.int 10) (some (.int 3))) 4 rfl (by decide) (by decide)⟩
theorem mf_withSt {c : Chain} {st : NState} (h : MF c) : MF (withSt c st) := by
  cases c with
  | root cl pc st0 => exact h
  | node cl f m s st0 p => exact h

theorem rootFin_withSt {c : Chain} {st : NState} (h : RootFin c) : RootFin (withSt c st) := by
  cases c with
  | root cl pc st0 => exact h
  | node cl f m s st0 p => exact h

theorem bufEmpty_withSt {c : Chain} {st : NState} (h : BufEmpty c) (hst : st.preGen = []) : BufEmpty (withSt c st) := by
  cases c with
  | root cl pc st0 => exact hst
  | node cl f m s st0 p => exact ⟨hst, h.2⟩

theorem some3_inj {A B C : Type} {a : A} {b : B} {c : C} {a' : A} {b' : B} {c' : C} (h : (some (a, b, c) : Option (A × B × C)) = some (a', b', c')) : a = a' ∧ b = b' ∧ c = c' := by
  simpa using h

theorem mf_step {f : Nat} {m : Bool} {c : Chain} {x : Val} {it : Iter} {ni : Val} {c' : Chain} (hmf : MF c) (hbe : BufEmpty c) (h : jsCore f m c x = some (it, ni, c')) : MF c' ∧ BufEmpty c' ∧ (it.done = true → it = doneIter ∧ RootFin c') ∧ (RootFin c → it.done = true) := by
  induction f generalizing m c x it ni c' with
  | zero => simp [jsCore] at h
  | succ f ih =>
    match m with
    | true =>
      rw [jsCore.eq_def] at h
      dsimp only at h
      have hpre : (stOf c).preGen = [] := by
        cases c with
        | root cl pc st => exact hbe
        | node cl fo mo so st p => exact hbe.1
      rw [hpre] at h
      rcases hg : jsCore f false c (stOf c).index with _ | ⟨⟨it1, ni1, c1⟩⟩ <;> rw [hg] at h
      · simp at h
      · obtain ⟨h1, h2, h3⟩ := some3_inj h
        subst h1; subst h2
        obtain ⟨hmf1, hbe1, hd1, hrf1⟩ := ih hmf hbe hg
        subst h3
        refine ⟨mf_withSt hmf1, bufEmpty_withSt hbe1 ?_, ?_, fun hrf => hrf1 hrf⟩
        · cases c1 with
          | root cl pc st => exact hbe1
          | node cl fo mo so st p => exact hbe1.1
        · intro hdone
          obtain ⟨hit, hrf⟩ := hd1 hdone
          exact ⟨hit, rootFin_withSt hrf⟩
    | false =>
      rw [jsCore.eq_def] at h
      match c with
      | .root cl pc st =>
        dsimp only at h
        obtain ⟨h1, h2, h3⟩ := some3_inj h
        subst h1; subst h2; subst h3
        match pc with
        | .finished =>
          exact ⟨hmf, hbe, fun _ => ⟨rfl, rfl⟩, fun _ => rfl⟩
        | .fresh =>
          by_cases he : isEnded cl st.currentValue = true
          · refine ⟨hmf, hbe, fun _ => ⟨?_, ?_⟩, fun hrf => absurd hrf (by intro hx; exact GenPC.noConfusion hx)⟩
            · simp [genNext, he]
            · show RootFin (Chain.root cl (genNext cl .fresh st.currentValue).2.1 _)
              simp [genNext, he, RootFin]
          · refine ⟨hmf, hbe, fun hd => ?_, fun hrf => absurd hrf (by intro hx; exact GenPC.noConfusion hx)⟩
            exfalso
            simp [genNext, he] at hd
        | .running =>
          by_cases he : isEnded cl (advanceCV cl st.currentValue) = true
          · refine ⟨hmf, hbe, fun _ => ⟨?_, ?_⟩, fun hrf => absurd hrf (by intro hx; exact GenPC.noConfusion hx)⟩
            · simp [genNext, he]
            · show RootFin (Chain.root cl (genNext cl .running st.currentValue).2.1 _)
              simp [genNext, he, RootFin]
          · refine ⟨hmf, hbe, fun hd => ?_, fun hrf => absurd hrf (by intro hx; exact GenPC.noConfusion hx)⟩
            exfalso
            simp [genNext, he] at hd
      | .node cl fo mo so st parent =>
        dsimp only at h
        obtain ⟨hso, hmfp⟩ := hmf
        obtain ⟨hbe0, hbep⟩ := hbe
        rw [Option.isNone_iff_eq_none] at hso
        subst hso
        rcases hg : jsCore f true parent (.int 0) with _ | ⟨⟨it1, ni1, parent1⟩⟩ <;> rw [hg] at h
        · simp at h
        · obtain ⟨hmf1, hbe1, hd1, hrf1⟩ := ih hmfp hbep hg
          by_cases hd : it1.done = true
          · simp only [hd, if_true] at h
            obtain ⟨h1, h2, h3⟩ := some3_inj h
            subst h1; subst h2; subst h3
            refine ⟨⟨rfl, hmf1⟩, ⟨hbe0, hbe1⟩, fun _ => ?_, fun _ => hd⟩
            obtain ⟨hit, hrf⟩ := hd1 hd
            exact ⟨hit, hrf⟩
          · simp only [hd, Bool.false_eq_true, if_false] at h
            have hnotrf : ¬ RootFin (Chain.node cl fo mo (none : Option (Val → Val → Bool)) st parent) := fun hrf => hd (hrf1 hrf)
            rcases fo with _ | φ
            · dsimp only at h
              obtain ⟨h1, h2, h3⟩ := some3_inj h
              subst h1; subst h2; subst h3
              exact ⟨⟨rfl, hmf1⟩, ⟨hbe0, hbe1⟩, fun hdone => by simp at hdone, fun hrf => absurd hrf hnotrf⟩
            · by_cases hφ : φ it1.value (bumpIndex x) = true
              · simp only [hφ, Bool.not_true, Bool.false_eq_true, if_false] at h
                obtain ⟨h1, h2, h3⟩ := some3_inj h
                subst h1; subst h2; subst h3
                exact ⟨⟨rfl, hmf1⟩, ⟨hbe0, hbe1⟩, fun hdone => by simp at hdone, fun hrf => absurd hrf hnotrf⟩
              · simp only [eq_false_of_ne_true hφ, Bool.not_false, if_true] at h
                have hmf2 : MF (Chain.node cl (some φ) mo none st parent1) := ⟨rfl, hmf1⟩
                have hbe2 : BufEmpty (Chain.node cl (some φ) mo none st parent1) := ⟨hbe0, hbe1⟩
                obtain ⟨m1, m2, m3, _⟩ := ih hmf2 hbe2 h
                exact ⟨m1, m2, m3, fun hrf => absurd hrf hnotrf⟩
theorem mf_stepTo {c : Chain} {it : Iter} {c' : Chain} (hmf : MF c) (hbe : BufEmpty c) (h : StepTo c it c') : MF c' ∧ BufEmpty c' ∧ (it.done = true → it = doneIter ∧ RootFin c') ∧ (RootFin c → it.done = true) := by
  obtain ⟨f, hf⟩ := h
  unfold rangeNext at hf
  rcases hg : jsCore f true c (.int 0) with _ | ⟨⟨it1, ni, c1⟩⟩ <;> rw [hg] at hf
  · simp at hf
  · obtain ⟨h1, h2⟩ : it1 = it ∧ c1 = c' := by simpa using hf
    subst h1; subst h2
    exact mf_step hmf hbe hg

theorem mf_run {c : Chain} {l : List Iter} {c' : Chain} (h : Run c l c') (hmf : MF c) (hbe : BufEmpty c) : MF c' ∧ BufEmpty c' := by
  induction h with
  | nil => exact ⟨hmf, hbe⟩
  | cons hs hr ih =>
    obtain ⟨hmf1, hbe1, _, _⟩ := mf_stepTo hmf hbe hs
    exact ih hmf1 hbe1

theorem mf_run_rootFin {c : Chain} {l : List Iter} {c' : Chain} (h : Run c l c') (hmf : MF c) (hbe : BufEmpty c) (hrf : RootFin c) : MF c' ∧ BufEmpty c' ∧ RootFin c' ∧ ∀ it ∈ l, it = doneIter := by
  induction h with
  | nil => exact ⟨hmf, hbe, hrf, by simp⟩
  | cons hs hr ih =>
    obtain ⟨hmf1, hbe1, hd1, hrf1⟩ := mf_stepTo hmf hbe hs
    have hdone := hrf1 hrf
    obtain ⟨hit, hrfin⟩ := hd1 hdone
    obtain ⟨m1, m2, m3, m4⟩ := ih hmf1 hbe1 hrfin
    exact ⟨m1, m2, m3, by
      intro it2 hmem
      rcases List.mem_cons.mp hmem with h1 | h2
      · rw [h1]; exact hit
      · exact m4 it2 h2⟩

/-- C10: on a chain built only from `map` and `filter` over a root with a
finite end bound, the done state is absorbing: in any run of `next()`
calls from the freshly built chain, once a call returns a done iteration,
every subsequent `next()` call also returns done with `undefined` value. -/
theorem C10_theorem (c0 : Chain) (hmf : MF c0) (hbe : BufEmpty c0) (l1 : List Iter) (c1 : Chain) (h1 : Run c0 l1 c1) (it : Iter) (c2 : Chain) (h2 : StepTo c1 it c2) (hdone : it.done = true) (l2 : List Iter) (c3 : Chain) (h3 : Run c2 l2 c3) (it2 : Iter) (c4 : Chain) (h4 : StepTo c3 it2 c4) : it2 = doneIter ∧ ∀ itm ∈ l2, itm = doneIter := by
  obtain ⟨hmf1, hbe1⟩ := mf_run h1 hmf hbe
  obtain ⟨hmf2, hbe2, hd2, _⟩ := mf_stepTo hmf1 hbe1 h2
  obtain ⟨_, hrf2⟩ := hd2 hdone
  obtain ⟨hmf3, hbe3, hrf3, hall⟩ := mf_run_rootFin h3 hmf2 hbe2 hrf2
  obtain ⟨_, _, hd4, hrf4⟩ := mf_stepTo hmf3 hbe3 h4
  exact ⟨(hd4 (hrf4 hrf3)).1, hall⟩

/-- C10 witness: `range(0, 1).map(v => v)` yields `0`, then done, and all
subsequent calls keep returning done with `undefined`. -/
theorem C10_theorem_witness : MF w10 ∧ BufEmpty w10 ∧ Run w10 [⟨false, .int 0⟩] w10a ∧ StepTo w10a doneIter w10b ∧ Run w10b [doneIter] w10c ∧ StepTo w10c doneIter w10d ∧ (doneIter = doneIter ∧ ∀ itm ∈ [doneIter], itm = doneIter) :=
  ⟨⟨rfl, rfl⟩, ⟨rfl, rfl⟩, Run.cons ⟨10, rfl⟩ (Run.nil _), ⟨10, rfl⟩, Run.cons ⟨10, rfl⟩ (Run.nil _), ⟨10, rfl⟩, C10_theorem w10 ⟨rfl, rfl⟩ ⟨rfl, rfl⟩ [⟨false, .int 0⟩] w10a (Run.cons ⟨10, rfl⟩ (Run.nil _)) doneIter w10b ⟨10, rfl⟩ rfl [doneIter] w10c (Run.cons ⟨10, rfl⟩ (Run.nil _)) doneIter w10d ⟨10, rfl⟩⟩
theorem stepTo_jsCore {c : Chain} {it : Iter} {c' : Chain} (h : StepTo c it c') : ∃ f niP, jsCore f true c (.int 0) = some (it, niP, c') := by
  obtain ⟨f, hf⟩ := h
  unfold rangeNext at hf
  rcases hg : jsCore f true c (.int 0) with _ | ⟨⟨it1, ni, c1⟩⟩ <;> rw [hg] at hf
  · simp at hf
  · obtain ⟨h1, h2⟩ : it1 = it ∧ c1 = c' := by simpa using hf
    subst h1; subst h2
    exact ⟨f, ni, hg⟩

theorem run_split {c : Chain} {l1 l2 : List Iter} {c'' : Chain} (h : Run c (l1 ++ l2) c'') : ∃ cm, Run c l1 cm ∧ Run cm l2 c'' := by
  induction l1 generalizing c with
  | nil => exact ⟨c, Run.nil c, h⟩
  | cons it l1 ih =>
    cases h with
    | cons hs hr =>
      obtain ⟨cm, hm1, hm2⟩ := ih hr
      exact ⟨cm, Run.cons hs hm1, hm2⟩

theorem gnv_stop_done {f : Nat} {cl : Closure} {σ : Val → Val → Bool} {st : NState} {parent : Chain} {it : Iter} {niP : Val} {p' : Chain} {ci : Val} (hj : jsCore f true parent (.int 0) = some (it, niP, p')) (hd : it.done = true) : jsCore (f + 1) false (.node cl none none (some σ) st parent) ci = some (it, bumpIndex ci, .node cl none none (some σ) st p') := by
  rw [jsCore.eq_def]
  dsimp only
  rw [hj]
  simp [hd]

theorem gnv_stop_pass {f : Nat} {cl : Closure} {σ : Val → Val → Bool} {st : NState} {parent : Chain} {it : Iter} {niP : Val} {p' : Chain} {ci : Val} (hj : jsCore f true parent (.int 0) = some (it, niP, p')) (hd : it.done = false) (hσ : σ it.value (bumpIndex ci) = true) : jsCore (f + 1) false (.node cl none none (some σ) st parent) ci = some (⟨false, it.value⟩, bumpIndex ci, .node cl none none (some σ) st p') := by
  rw [jsCore.eq_def]
  dsimp only
  rw [hj]
  simp [hd, hσ]

theorem gnv_stop_fail {f : Nat} {cl : Closure} {σ : Val → Val → Bool} {st : NState} {parent : Chain} {it : Iter} {niP : Val} {p' : Chain} {ci : Val} (hj : jsCore f true parent (.int 0) = some (it, niP, p')) (hd : it.done = false) (hσ : σ it.value (bumpIndex ci) = false) : jsCore (f + 1) false (.node cl none none (some σ) st parent) ci = some (doneIter, bumpIndex ci, .node cl none none (some σ) st p') := by
  rw [jsCore.eq_def]
  dsimp only
  rw [hj]
  simp [hd, hσ]

theorem rangeNext_of_gnv {f : Nat} {c : Chain} {it : Iter} {ni : Val} {c1 : Chain} (hbuf : (stOf c).preGen = []) (hg : jsCore (f + 1) false c (stOf c).index = some (it, ni, c1)) : rangeNext (f + 2) c = some (it, withSt c1 { stOf c1 with index := ni, currentValue := it.value, genCount := bumpIndex (stOf c1).genCount }) := by
  unfold rangeNext
  rw [jsCore.eq_def]
  dsimp only
  rw [hbuf, hg]
  rfl
theorem bumpIndex_int {i : Int} (h : i < MAX_SAFE) : bumpIndex (.int i) = .int (i + 1) := by
  simp [bumpIndex, jsLt, h, jsAdd]

theorem takePred_int {n v : Val} {j : Int} : takePred n v (.int j) = jsLe (.int j) n := rfl

theorem idxBig_bump {idx : Val} {n : Int} (h : idxBig idx n) : idxBig (bumpIndex idx) n := by
  rcases h with ⟨i, rfl, hi⟩ | rfl
  · by_cases hlt : i < MAX_SAFE
    · rw [bumpIndex_int hlt]
      exact Or.inl ⟨i + 1, rfl, by omega⟩
    · right
      simp [bumpIndex, jsLt, hlt]
  · right
    simp [bumpIndex, jsLt]

theorem takePred_fail_of_idxBig {idx : Val} {n : Int} {v : Val} (h : idxBig idx n) : takePred (.int n) v (bumpIndex idx) = false := by
  rcases h with ⟨i, rfl, hi⟩ | rfl
  · by_cases hlt : i < MAX_SAFE
    · rw [bumpIndex_int hlt]
      simp [takePred, jsLe]
      omega
    · have : bumpIndex (.int i) = .inf true := by simp [bumpIndex, jsLt, hlt]
      rw [this]
      simp [takePred, jsLe]
  · have : bumpIndex (.inf true) = .inf true := by simp [bumpIndex, jsLt]
    rw [this]
    simp [takePred, jsLe]

theorem doneForever_step {c : Chain} {it : Iter} {c' : Chain} (hdf : DoneForever c) (h : StepTo c it c') : it = doneIter ∧ DoneForever c' := by
  constructor
  · have := (hdf [it] c' (Run.cons h (Run.nil c'))).1
    exact this it (by simp)
  · intro l c2 hr
    exact ⟨fun it2 hm => (hdf (it :: l) c2 (Run.cons h hr)).1 it2 (by simp [hm]), (hdf (it :: l) c2 (Run.cons h hr)).2⟩

theorem produces_cases {p : Chain} {ws : List Val} (h : Produces p ws) : (ws = [] ∧ DoneForever p) ∨ (∃ v rest p1, ws = v :: rest ∧ StepTo p ⟨false, v⟩ p1 ∧ Produces p1 rest) := by
  obtain ⟨c', hrun, hdf⟩ := h
  match ws with
  | [] =>
    cases hrun
    exact Or.inl ⟨rfl, hdf⟩
  | v :: rest =>
    cases hrun with
    | cons hs hr => exact Or.inr ⟨v, rest, _, rfl, hs, _, hr, hdf⟩

theorem rangeNext_stopnode_inv {f : Nat} {cl : Closure} {σ : Val → Val → Bool} {st : NState} {parent : Chain} {it : Iter} {c' : Chain} (hbuf : st.preGen = []) (h : rangeNext f (.node cl none none (some σ) st parent) = some (it, c')) : ∃ pit p', StepTo parent pit p' ∧ ((pit.done = true ∧ it = pit) ∨ (pit.done = false ∧ σ pit.value (bumpIndex st.index) = true ∧ it = ⟨false, pit.value⟩) ∨ (pit.done = false ∧ σ pit.value (bumpIndex st.index) = false ∧ it = doneIter)) ∧ c' = .node cl none none (some σ) { st with index := bumpIndex st.index, currentValue := it.value, genCount := bumpIndex st.genCount } p' := by
  match f with
  | 0 => simp [rangeNext, jsCore] at h
  | 1 =>
    unfold rangeNext at h
    rw [jsCore.eq_def] at h
    dsimp only [stOf] at h
    rw [hbuf] at h
    simp [jsCore] at h
  | g + 2 =>
    unfold rangeNext at h
    rw [jsCore.eq_def] at h
    dsimp only [stOf] at h
    rw [hbuf] at h
    rcases hg : jsCore (g + 1) false (.node cl none none (some σ) st parent) st.index with _ | ⟨⟨it1, ni1, c1⟩⟩ <;> rw [hg] at h
    · simp at h
    · have h' : (some (it1, withSt c1 { stOf c1 with index := ni1, currentValue := it1.value, genCount := bumpIndex (stOf c1).genCount }) : Option (Iter × Chain)) = some (it, c') := h
      obtain ⟨h1, h2⟩ : it1 = it ∧ withSt c1 { stOf c1 with index := ni1, currentValue := it1.value, genCount := bumpIndex (stOf c1).genCount } = c' := by simpa using h'
      subst h1
      rw [jsCore.eq_def] at hg
      dsimp only at hg
      rcases hp : jsCore g true parent (.int 0) with _ | ⟨⟨pit, pni, p'⟩⟩ <;> rw [hp] at hg
      · simp at hg
      · have hstep : StepTo parent pit p' := ⟨g, by unfold rangeNext; rw [hp]; rfl⟩
        dsimp only at hg
        by_cases hd : pit.done = true
        · simp only [hd, if_true] at hg
          obtain ⟨g1, g2, g3⟩ := some3_inj hg
          subst g1; subst g2; subst g3
          exact ⟨pit, p', hstep, Or.inl ⟨hd, rfl⟩, h2.symm⟩
        · simp only [hd, Bool.false_eq_true, if_false] at hg
          by_cases hσ : σ pit.value (bumpIndex st.index) = true
          · simp only [hσ, Bool.not_true, Bool.false_eq_true, if_false] at hg
            obtain ⟨g1, g2, g3⟩ := some3_inj hg
            subst g1; subst g2; subst g3
            exact ⟨pit, p', hstep, Or.inr (Or.inl ⟨eq_false_of_ne_true hd, hσ, rfl⟩), h2.symm⟩
          · simp only [eq_false_of_ne_true hσ, Bool.not_false, if_true] at hg
            obtain ⟨g1, g2, g3⟩ := some3_inj hg
            subst g1; subst g2; subst g3
            exact ⟨pit, p', hstep, Or.inr (Or.inr ⟨eq_false_of_ne_true hd, eq_false_of_ne_true hσ, rfl⟩), h2.symm⟩
theorem infProduces_shift {c : Chain} {g : Nat → Val} {p1 : Chain} (h : InfProduces c g) (hs : StepTo c ⟨false, g 0⟩ p1) : InfProduces p1 (fun j => g (j + 1)) := by
  intro m
  obtain ⟨c', hrun⟩ := h (m + 1)
  have hlist : valIters ((List.range (m + 1)).map g) = ⟨false, g 0⟩ :: valIters ((List.range m).map fun j => g (j + 1)) := by
    rw [List.range_succ_eq_map]
    simp [valIters, List.map_map]
  rw [hlist] at hrun
  cases hrun with
  | cons hs0 hr =>
    obtain ⟨_, hc⟩ := stepTo_det hs0 hs
    subst hc
    exact ⟨c', hr⟩

theorem takeDone_can {c : Chain} (h : TakeDone c) : ∃ c', StepTo c doneIter c' := by
  obtain ⟨cl, n, st, parent, rfl, hbuf, hdisj, hpk⟩ := h
  have fromDf : DoneForever parent → ∃ c', StepTo (Chain.node cl none none (some (takePred (.int n))) st parent) doneIter c' := by
    intro hdf
    obtain ⟨p3, pstep⟩ := (hdf [] parent (Run.nil parent)).2
    obtain ⟨g, ni, hj⟩ := stepTo_jsCore pstep
    have hgd : jsCore (g + 1) false (Chain.node cl none none (some (takePred (.int n))) st parent) st.index = some (doneIter, bumpIndex st.index, Chain.node cl none none (some (takePred (.int n))) st p3) := gnv_stop_done hj rfl
    exact ⟨_, g + 2, rangeNext_of_gnv hbuf hgd⟩
  have fromVal : ∀ v p1, StepTo parent ⟨false, v⟩ p1 → idxBig st.index n → ∃ c', StepTo (Chain.node cl none none (some (takePred (.int n))) st parent) doneIter c' := by
    intro v p1 pstep hbig
    obtain ⟨g, ni, hj⟩ := stepTo_jsCore pstep
    have hgf : jsCore (g + 1) false (Chain.node cl none none (some (takePred (.int n))) st parent) st.index = some (doneIter, bumpIndex st.index, Chain.node cl none none (some (takePred (.int n))) st p1) := gnv_stop_fail hj rfl (takePred_fail_of_idxBig hbig)
    exact ⟨_, g + 2, rangeNext_of_gnv hbuf hgf⟩
  rcases hdisj with hbig | hdf
  · rcases hpk with ⟨ws, hpr⟩ | ⟨g, hinf⟩
    · rcases produces_cases hpr with ⟨_, hdf⟩ | ⟨v, rest, p1, _, pstep, _⟩
      · exact fromDf hdf
      · exact fromVal v p1 pstep hbig
    · obtain ⟨c', hrun⟩ := hinf 1
      have hlist : valIters ((List.range 1).map g) = [⟨false, g 0⟩] := rfl
      rw [hlist] at hrun
      cases hrun with
      | cons hs0 hr => exact fromVal (g 0) _ hs0 hbig
  · exact fromDf hdf

theorem takeDone_step {c : Chain} {it : Iter} {c' : Chain} (h : TakeDone c) (hs : StepTo c it c') : it = doneIter ∧ TakeDone c' := by
  obtain ⟨cl, n, st, parent, rfl, hbuf, hdisj, hpk⟩ := h
  obtain ⟨f, hrn⟩ := hs
  obtain ⟨pit, p', pstep, hbr, hc'⟩ := rangeNext_stopnode_inv hbuf hrn
  rcases hdisj with hbig | hdf
  · rcases hpk with ⟨ws, hpr⟩ | ⟨g, hinf⟩
    · rcases produces_cases hpr with ⟨hws, hdf⟩ | ⟨v, rest, p1, hws, pstep0, hpr1⟩
      · obtain ⟨hpd, hdf'⟩ := doneForever_step hdf pstep
        subst hpd
        rcases hbr with ⟨_, hit⟩ | ⟨hd, _, _⟩ | ⟨hd, _, _⟩
        · subst hit
          subst hc'
          exact ⟨rfl, cl, n, _, p', rfl, hbuf, Or.inr hdf', Or.inl ⟨[], p', Run.nil p', hdf'⟩⟩
        · simp [doneIter] at hd
        · simp [doneIter] at hd
      · obtain ⟨hpd, hpc⟩ := stepTo_det pstep pstep0
        subst hpd
        subst hpc
        rcases hbr with ⟨hd, _⟩ | ⟨_, hσ, _⟩ | ⟨_, _, hit⟩
        · simp at hd
        · rw [takePred_fail_of_idxBig hbig] at hσ
          simp at hσ
        · subst hit
          subst hc'
          exact ⟨rfl, cl, n, _, _, rfl, hbuf, Or.inl (idxBig_bump hbig), Or.inl ⟨rest, hpr1⟩⟩
    · obtain ⟨cm, hrun⟩ := hinf 1
      have hlist : valIters ((List.range 1).map g) = [⟨false, g 0⟩] := rfl
      rw [hlist] at hrun
      cases hrun with
      | cons hs0 hr =>
        obtain ⟨hpd, hpc⟩ := stepTo_det pstep hs0
        subst hpd
        subst hpc
        rcases hbr with ⟨hd, _⟩ | ⟨_, hσ, _⟩ | ⟨_, _, hit⟩
        · simp at hd
        · rw [takePred_fail_of_idxBig hbig] at hσ
          simp at hσ
        · subst hit
          subst hc'
          exact ⟨rfl, cl, n, _, _, rfl, hbuf, Or.inl (idxBig_bump hbig), Or.inr ⟨fun j => g (j + 1), infProduces_shift hinf hs0⟩⟩
  · obtain ⟨hpd, hdf'⟩ := doneForever_step hdf pstep
    subst hpd
    rcases hbr with ⟨_, hit⟩ | ⟨hd, _, _⟩ | ⟨hd, _, _⟩
    · subst hit
      subst hc'
      exact ⟨rfl, cl, n, _, p', rfl, hbuf, Or.inr hdf', Or.inl ⟨[], p', Run.nil p', hdf'⟩⟩
    · simp [doneIter] at hd
    · simp [doneIter] at hd

theorem takeDone_run {c : Chain} {l : List Iter} {c2 : Chain} (h : TakeDone c) (hr : Run c l c2) : (∀ it ∈ l, it = doneIter) ∧ TakeDone c2 := by
  induction hr with
  | nil => exact ⟨by simp, h⟩
  | cons hs hrr ih =>
    obtain ⟨hit, h2⟩ := takeDone_step h hs
    obtain ⟨m1, m2⟩ := ih h2
    refine ⟨?_, m2⟩
    intro it2 hm
    rcases List.mem_cons.mp hm with h1 | h1
    · rw [h1]; exact hit
    · exact m1 it2 h1

theorem takeDone_doneForever {c : Chain} (h : TakeDone c) : DoneForever c := by
  intro l c2 hr
  obtain ⟨m1, m2⟩ := takeDone_run h hr
  exact ⟨m1, takeDone_can m2⟩
theorem take_yield_run (cl : Closure) (n : Int) (hnmax : n ≤ MAX_SAFE) : ∀ (vs1 : List Val) (i : Int) (st : NState) (parent c' : Chain), Run parent (valIters vs1) c' → st.index = .int i → st.preGen = [] → 0 ≤ i → i + vs1.length ≤ n → ∃ st', Run (.node cl none none (some (takePred (.int n))) st parent) (valIters vs1) (.node cl none none (some (takePred (.int n))) st' c') ∧ st'.index = .int (i + vs1.length) ∧ st'.preGen = [] := by
  intro vs1
  induction vs1 with
  | nil =>
    intro i st parent c' hrun hidx hbuf hi hcnt
    cases hrun
    exact ⟨st, Run.nil _, by simpa using hidx, hbuf⟩
  | cons v vs1 ih =>
    intro i st parent c' hrun hidx hbuf hi hcnt
    have hlist : valIters (v :: vs1) = ⟨false, v⟩ :: valIters vs1 := rfl
    rw [hlist] at hrun ⊢
    cases hrun with
    | @cons _ _ p1 _ _ hs hr =>
      obtain ⟨f, niP, hj⟩ := stepTo_jsCore hs
      have hlen : ((v :: vs1).length : Int) = (vs1.length : Int) + 1 := by push_cast [List.length_cons]; ring
      have hiMAX : i < MAX_SAFE := by
        rw [hlen] at hcnt
        have : (0 : Int) ≤ (vs1.length : Int) := Int.natCast_nonneg _
        omega
      have hbump : bumpIndex st.index = .int (i + 1) := by rw [hidx]; exact bumpIndex_int hiMAX
      have hσ : takePred (.int n) v (bumpIndex st.index) = true := by
        rw [hbump]
        simp only [takePred, jsLe, decide_eq_true_eq]
        rw [hlen] at hcnt
        have : (0 : Int) ≤ (vs1.length : Int) := Int.natCast_nonneg _
        omega
      have hgnv : jsCore (f + 1) false (.node cl none none (some (takePred (.int n))) st parent) st.index = some (⟨false, v⟩, bumpIndex st.index, .node cl none none (some (takePred (.int n))) st p1) := gnv_stop_pass hj rfl hσ
      have hrn := rangeNext_of_gnv (c := .node cl none none (some (takePred (.int n))) st parent) hbuf hgnv
      rw [hbump] at hrn
      obtain ⟨st', hrun', hidx', hbuf'⟩ := ih (i + 1) { st with index := Val.int (i + 1), currentValue := v, genCount := bumpIndex st.genCount } p1 c' hr rfl (by simpa using hbuf) (by omega) (by rw [hlen] at hcnt; omega)
      refine ⟨st', Run.cons ⟨f + 2, hrn⟩ hrun', ?_, hbuf'⟩
      rw [hidx', hlen]
      congr 1
      ring
theorem entriesFrom_length (vs : List Val) (i : Int) : (entriesFrom vs i).length = vs.length := by
  induction vs generalizing i with
  | nil => rfl
  | cons v r ih => simp [entriesFrom, ih]

theorem lenLoop_run (cl : Closure) (n : Int) (st : NState) (hnmax : n ≤ MAX_SAFE) : ∀ (vs1 : List Val) (i : Int) (parent c' : Chain), Run parent (valIters vs1) c' → 0 ≤ i → i + vs1.length ≤ n → (∃ Fd itd nid p2, jsCore Fd false (.node cl none none (some (takePred (.int n))) st c') (.int (i + vs1.length)) = some (itd, nid, .node cl none none (some (takePred (.int n))) st p2) ∧ itd.done = true) → ∃ F p3, lengthLoop F (.node cl none none (some (takePred (.int n))) st parent) (.int i) = some (entriesFrom vs1 i, .node cl none none (some (takePred (.int n))) st p3) := by
  intro vs1
  induction vs1 with
  | nil =>
    intro i parent c' hrun hi hcnt hstop
    cases hrun
    obtain ⟨Fd, itd, nid, p2, hd, hdone⟩ := hstop
    refine ⟨Fd + 1, p2, ?_⟩
    rw [lengthLoop]
    have hd' : getNextValue Fd (.node cl none none (some (takePred (.int n))) st parent) (.int i) = some (itd, nid, .node cl none none (some (takePred (.int n))) st p2) := by
      simpa using hd
    rw [hd']
    simp [hdone, entriesFrom]
  | cons v vs1 ih =>
    intro i parent c' hrun hi hcnt hstop
    have hlist : valIters (v :: vs1) = ⟨false, v⟩ :: valIters vs1 := rfl
    rw [hlist] at hrun
    cases hrun with
    | @cons _ _ p1 _ _ hs hr =>
      obtain ⟨f, niP, hj⟩ := stepTo_jsCore hs
      have hlen : ((v :: vs1).length : Int) = (vs1.length : Int) + 1 := by push_cast [List.length_cons]; ring
      have hiMAX : i < MAX_SAFE := by
        rw [hlen] at hcnt
        have : (0 : Int) ≤ (vs1.length : Int) := Int.natCast_nonneg _
        omega
      have hbump : bumpIndex (Val.int i) = .int (i + 1) := bumpIndex_int hiMAX
      have hσ : takePred (.int n) v (bumpIndex (Val.int i)) = true := by
        rw [hbump]
        simp only [takePred, jsLe, decide_eq_true_eq]
        rw [hlen] at hcnt
        have : (0 : Int) ≤ (vs1.length : Int) := Int.natCast_nonneg _
        omega
      have hgnv : jsCore (f + 1) false (.node cl none none (some (takePred (.int n))) st parent) (.int i) = some (⟨false, v⟩, bumpIndex (Val.int i), .node cl none none (some (takePred (.int n))) st p1) := gnv_stop_pass hj rfl hσ
      rw [hbump] at hgnv
      have hcnt' : (i + 1) + (vs1.length : Int) ≤ n := by rw [hlen] at hcnt; omega
      have hstop' : ∃ Fd itd nid p2, jsCore Fd false (.node cl none none (some (takePred (.int n))) st c') (.int ((i + 1) + vs1.length)) = some (itd, nid, .node cl none none (some (takePred (.int n))) st p2) ∧ itd.done = true := by
        obtain ⟨Fd, itd, nid, p2, hd, hdone⟩ := hstop
        refine ⟨Fd, itd, nid, p2, ?_, hdone⟩
        have : i + ((v :: vs1).length : Int) = (i + 1) + (vs1.length : Int) := by rw [hlen]; ring
        rw [this] at hd
        exact hd
      obtain ⟨F, p3, hloop⟩ := ih (i + 1) p1 c' hr (by omega) hcnt' hstop'
      refine ⟨max (f + 2) (F + 1), p3, ?_⟩
      have hM1 : f + 1 ≤ max (f + 2) (F + 1) - 1 := by omega
      have hM2 : F ≤ max (f + 2) (F + 1) - 1 := by omega
      have hMpos : max (f + 2) (F + 1) = (max (f + 2) (F + 1) - 1) + 1 := by omega
      rw [hMpos, lengthLoop]
      have hgnv' : getNextValue (max (f + 2) (F + 1) - 1) (.node cl none none (some (takePred (.int n))) st parent) (.int i) = some (⟨false, v⟩, .int (i + 1), .node cl none none (some (takePred (.int n))) st p1) := getNextValue_mono_le hM1 hgnv
      rw [hgnv']
      dsimp only
      rw [lengthLoop_mono_le hM2 hloop]
      have : i + ((v :: vs1).length : Int) = (i + 1) + (vs1.length : Int) := by rw [hlen]; ring
      simp [entriesFrom]
theorem takeR_ok_shape {n : Int} {c t : Chain} (h : takeR (.int n) c = .ok t) : (0 ≤ n ∧ n ≤ MAX_SAFE) ∧ t = .node (clOf c) none none (some (takePred (.int n))) { freshSt (clOf c) with isFin := true } c := by
  unfold takeR at h
  split at h
  · exact absurd h (by simp)
  · rename_i hcond
    simp only [Bool.or_eq_true, Bool.not_eq_true', not_or, isSafeInt, jsLt, Bool.and_eq_true, decide_eq_true_eq, Bool.not_eq_false] at hcond
    refine ⟨by omega, ?_⟩
    exact (Except.ok.inj h).symm

theorem infProduces_shiftRun {c : Chain} {g : Nat → Val} {k : Nat} {pm : Chain} (h : InfProduces c g) (hrun : Run c (valIters ((List.range k).map g)) pm) : InfProduces pm (fun j => g (k + j)) := by
  intro m
  obtain ⟨c', hbig⟩ := h (k + m)
  have hlist : valIters ((List.range (k + m)).map g) = valIters ((List.range k).map g) ++ valIters ((List.range m).map fun j => g (k + j)) := by
    rw [List.range_add, List.map_append, List.map_map]
    simp [valIters]
  rw [hlist] at hbig
  obtain ⟨mid, ha, hb⟩ := run_split hbig
  obtain ⟨_, hc⟩ := run_det ha hrun rfl
  subst hc
  exact ⟨c', hb⟩

theorem take_produces_finite {c : Chain} {vs : List Val} {n : Int} (hn : 0 ≤ n) (hnmax : n ≤ MAX_SAFE) (hp : Produces c vs) : Produces (.node (clOf c) none none (some (takePred (.int n))) { freshSt (clOf c) with isFin := true } c) (vs.take n.toNat) := by
  obtain ⟨cF, hrunF, hdf⟩ := hp
  have hsplit : valIters vs = valIters (vs.take (min n.toNat vs.length)) ++ valIters (vs.drop (min n.toNat vs.length)) := by
    rw [valIters, valIters, valIters, ← List.map_append, List.take_append_drop]
  rw [hsplit] at hrunF
  obtain ⟨pm, h1, h2⟩ := run_split hrunF
  have htklen : ((vs.take (min n.toNat vs.length)).length : Int) = ((min n.toNat vs.length : Nat) : Int) := by
    simp [List.length_take, Nat.min_assoc]
  have hmn : ((min n.toNat vs.length : Nat) : Int) ≤ n := by
    have h1 := Nat.min_le_left n.toNat vs.length
    omega
  have hcnt : (0 : Int) + ((vs.take (min n.toNat vs.length)).length : Int) ≤ n := by
    rw [htklen]; omega
  obtain ⟨st', runA, hidx', hbuf'⟩ := take_yield_run (clOf c) n hnmax (vs.take (min n.toNat vs.length)) 0 { freshSt (clOf c) with isFin := true } c pm h1 rfl rfl (le_refl 0) hcnt
  have htake : vs.take n.toNat = vs.take (min n.toNat vs.length) := by
    by_cases hle : n.toNat ≤ vs.length
    · rw [Nat.min_eq_left hle]
    · push_neg at hle
      rw [Nat.min_eq_right (Nat.le_of_lt hle), List.take_length, List.take_of_length_le (Nat.le_of_lt hle)]
  have htd : TakeDone (.node (clOf c) none none (some (takePred (.int n))) st' pm) := by
    by_cases hle : n.toNat ≤ vs.length
    · refine ⟨_, n, st', pm, rfl, hbuf', Or.inl ?_, Or.inl ⟨vs.drop (min n.toNat vs.length), cF, h2, hdf⟩⟩
      refine Or.inl ⟨((min n.toNat vs.length : Nat) : Int), ?_, ?_⟩
      · rw [hidx', htklen]
        congr 1
        ring
      · rw [Nat.min_eq_left hle]
        omega
    · push_neg at hle
      have hdrop : vs.drop (min n.toNat vs.length) = [] := by
        rw [Nat.min_eq_right (Nat.le_of_lt hle), List.drop_length]
      rw [hdrop] at h2
      have hpm : pm = cF := by cases h2; rfl
      subst hpm
      exact ⟨_, n, st', pm, rfl, hbuf', Or.inr hdf, Or.inl ⟨[], pm, Run.nil pm, hdf⟩⟩
  rw [htake]
  exact ⟨_, runA, takeDone_doneForever htd⟩

theorem take_produces_inf {c : Chain} {g : Nat → Val} {n : Int} (hn : 0 ≤ n) (hnmax : n ≤ MAX_SAFE) (hp : InfProduces c g) : Produces (.node (clOf c) none none (some (takePred (.int n))) { freshSt (clOf c) with isFin := true } c) ((List.range n.toNat).map g) := by
  obtain ⟨pm, h1⟩ := hp n.toNat
  have hlen : (((List.range n.toNat).map g).length : Int) = n := by
    simp [Int.toNat_of_nonneg hn]
  have hcnt : (0 : Int) + (((List.range n.toNat).map g).length : Int) ≤ n := by rw [hlen]; omega
  obtain ⟨st', runA, hidx', hbuf'⟩ := take_yield_run (clOf c) n hnmax ((List.range n.toNat).map g) 0 { freshSt (clOf c) with isFin := true } c pm h1 rfl rfl (le_refl 0) hcnt
  have htd : TakeDone (.node (clOf c) none none (some (takePred (.int n))) st' pm) := by
    refine ⟨_, n, st', pm, rfl, hbuf', Or.inl (Or.inl ⟨n, ?_, le_refl n⟩), Or.inr ⟨fun j => g (n.toNat + j), infProduces_shiftRun hp h1⟩⟩
    rw [hidx', hlen]
    congr 1
    ring
  exact ⟨_, runA, takeDone_doneForever htd⟩
theorem lengthGet_stopnode {F : Nat} {cl : Closure} {σ : Val → Val → Bool} {parent p3 : Chain} {entries : List (Iter × Val)} (hloop : lengthLoop F (.node cl none none (some σ) { freshSt cl with isFin := true } parent) (Val.int 0) = some (entries, .node cl none none (some σ) { freshSt cl with isFin := true } p3)) (hlen : ((entries.length : Int)) ≤ MAX_SAFE) : lengthGet F (.node cl none none (some σ) { freshSt cl with isFin := true } parent) = some (.int (entries.length : Int), .node cl none none (some σ) { freshSt cl with isFin := true, preGen := entries, cachedLength := some (.int (entries.length : Int)) } p3) := by
  dsimp only [freshSt] at hloop ⊢
  rw [lengthGet.eq_def]
  dsimp only [stOf, filterOf, stopOf]
  simp only [Bool.not_true, Bool.false_eq_true, if_false, Option.isNone_none, Option.isNone_some, Bool.and_false, Bool.and_true]
  rw [hloop]
  dsimp only [stOf, withSt]
  have h2 : jsLe (.int (entries.length : Int)) (jsSub (.int MAX_SAFE) (.int 0)) = true := by
    simp [jsLe, jsSub]
    exact hlen
  simp only [h2, if_true, List.nil_append, jsAdd]
  norm_num [freshSt]
theorem take_hstop_done {cl : Closure} {n : Int} {st : NState} {pm : Chain} {j : Int} (hdf : DoneForever pm) : ∃ Fd itd nid p2, jsCore Fd false (.node cl none none (some (takePred (.int n))) st pm) (.int j) = some (itd, nid, .node cl none none (some (takePred (.int n))) st p2) ∧ itd.done = true := by
  obtain ⟨p3, pstep⟩ := (hdf [] pm (Run.nil pm)).2
  obtain ⟨g, ni, hj⟩ := stepTo_jsCore pstep
  have hgd : jsCore (g + 1) false (.node cl none none (some (takePred (.int n))) st pm) (.int j) = some (doneIter, bumpIndex (.int j), .node cl none none (some (takePred (.int n))) st p3) := gnv_stop_done hj rfl
  exact ⟨g + 1, doneIter, bumpIndex (.int j), p3, hgd, rfl⟩

theorem take_hstop_fail {cl : Closure} {n : Int} {st : NState} {pm : Chain} {v : Val} {p1 : Chain} {j : Int} (hs : StepTo pm ⟨false, v⟩ p1) (hnj : n ≤ j) : ∃ Fd itd nid p2, jsCore Fd false (.node cl none none (some (takePred (.int n))) st pm) (.int j) = some (itd, nid, .node cl none none (some (takePred (.int n))) st p2) ∧ itd.done = true := by
  obtain ⟨g, ni, hj⟩ := stepTo_jsCore hs
  have hfail : takePred (.int n) v (bumpIndex (.int j)) = false := takePred_fail_of_idxBig (Or.inl ⟨j, rfl, hnj⟩)
  have hgf : jsCore (g + 1) false (.node cl none none (some (takePred (.int n))) st pm) (.int j) = some (doneIter, bumpIndex (.int j), .node cl none none (some (takePred (.int n))) st p1) := gnv_stop_fail hj rfl hfail
  exact ⟨g + 1, doneIter, bumpIndex (.int j), p1, hgf, rfl⟩

theorem take_length_finite {c : Chain} {vs : List Val} {n : Int} (hn : 0 ≤ n) (hnmax : n ≤ MAX_SAFE) (hp : Produces c vs) : ∃ F L tL, lengthGet F (.node (clOf c) none none (some (takePred (.int n))) { freshSt (clOf c) with isFin := true } c) = some (.int L, tL) ∧ L = min n (vs.length : Int) := by
  obtain ⟨cF, hrunF, hdf⟩ := hp
  have hsplit : valIters vs = valIters (vs.take (min n.toNat vs.length)) ++ valIters (vs.drop (min n.toNat vs.length)) := by
    rw [valIters, valIters, valIters, ← List.map_append, List.take_append_drop]
  rw [hsplit] at hrunF
  obtain ⟨pm, h1, h2⟩ := run_split hrunF
  have htklen : ((vs.take (min n.toNat vs.length)).length : Int) = ((min n.toNat vs.length : Nat) : Int) := by
    simp [List.length_take, Nat.min_assoc]
  have hmn : ((min n.toNat vs.length : Nat) : Int) ≤ n := by
    have h3 := Nat.min_le_left n.toNat vs.length
    omega
  have hcnt : (0 : Int) + ((vs.take (min n.toNat vs.length)).length : Int) ≤ n := by rw [htklen]; omega
  have hstop : ∃ Fd itd nid p2, jsCore Fd false (.node (clOf c) none none (some (takePred (.int n))) { freshSt (clOf c) with isFin := true } pm) (.int ((0 : Int) + ((vs.take (min n.toNat vs.length)).length : Int))) = some (itd, nid, .node (clOf c) none none (some (takePred (.int n))) { freshSt (clOf c) with isFin := true } p2) ∧ itd.done = true := by
    rcases hdp : vs.drop (min n.toNat vs.length) with _ | ⟨v, rest⟩
    · rw [hdp] at h2
      have hpm : pm = cF := by cases h2; rfl
      subst hpm
      exact take_hstop_done hdf
    · rw [hdp] at h2
      have hlist : valIters (v :: rest) = ⟨false, v⟩ :: valIters rest := rfl
      rw [hlist] at h2
      cases h2 with
      | cons hs hr =>
        refine take_hstop_fail hs ?_
        have hlt : min n.toNat vs.length < vs.length := by
          by_contra hcon
          push_neg at hcon
          have : vs.drop (min n.toNat vs.length) = [] := List.drop_eq_nil_of_le hcon
          rw [this] at hdp
          exact List.noConfusion hdp
        have hmeq : min n.toNat vs.length = n.toNat := by omega
        rw [htklen, hmeq]
        omega
  obtain ⟨F, p3, hloop⟩ := lenLoop_run (clOf c) n { freshSt (clOf c) with isFin := true } hnmax (vs.take (min n.toNat vs.length)) 0 c pm h1 (le_refl 0) hcnt hstop
  have hElen : ((entriesFrom (vs.take (min n.toNat vs.length)) 0).length : Int) = ((min n.toNat vs.length : Nat) : Int) := by
    rw [entriesFrom_length]
    exact htklen
  refine ⟨F, ((entriesFrom (vs.take (min n.toNat vs.length)) 0).length : Int), _, lengthGet_stopnode hloop (by rw [hElen]; omega), ?_⟩
  rw [hElen]
  have : ((min n.toNat vs.length : Nat) : Int) = min n (vs.length : Int) := by
    rw [Nat.cast_min, Int.toNat_of_nonneg hn]
  rw [this]

theorem take_length_inf {c : Chain} {g : Nat → Val} {n : Int} (hn : 0 ≤ n) (hnmax : n ≤ MAX_SAFE) (hp : InfProduces c g) : ∃ F tL, lengthGet F (.node (clOf c) none none (some (takePred (.int n))) { freshSt (clOf c) with isFin := true } c) = some (.int n, tL) := by
  obtain ⟨pm, h1⟩ := hp n.toNat
  have hlen : (((List.range n.toNat).map g).length : Int) = n := by
    simp [Int.toNat_of_nonneg hn]
  have hcnt : (0 : Int) + (((List.range n.toNat).map g).length : Int) ≤ n := by rw [hlen]; omega
  have hshift := infProduces_shiftRun hp h1
  obtain ⟨pm2, hrun1⟩ := hshift 1
  have hlist : valIters ((List.range 1).map fun j => g (n.toNat + j)) = [⟨false, g (n.toNat + 0)⟩] := rfl
  rw [hlist] at hrun1
  cases hrun1 with
  | cons hs hr =>
    have hstop : ∃ Fd itd nid p2, jsCore Fd false (.node (clOf c) none none (some (takePred (.int n))) { freshSt (clOf c) with isFin := true } pm) (.int ((0 : Int) + (((List.range n.toNat).map g).length : Int))) = some (itd, nid, .node (clOf c) none none (some (takePred (.int n))) { freshSt (clOf c) with isFin := true } p2) ∧ itd.done = true := by
      refine take_hstop_fail hs ?_
      rw [hlen]
      omega
    obtain ⟨F, p3, hloop⟩ := lenLoop_run (clOf c) n { freshSt (clOf c) with isFin := true } hnmax ((List.range n.toNat).map g) 0 c pm h1 (le_refl 0) hcnt hstop
    have hElen : ((entriesFrom ((List.range n.toNat).map g) 0).length : Int) = n := by
      rw [entriesFrom_length]
      exact hlen
    have hres := lengthGet_stopnode hloop (by rw [hElen]; omega)
    rw [hElen] at hres
    exact ⟨F, _, hres⟩
theorem takeR_error_iff (nv : Val) (c : Chain) : takeR nv c = .error .invalidCount ↔ ¬ ∃ k : Int, nv = .int k ∧ 0 ≤ k ∧ k ≤ MAX_SAFE := by
  unfold takeR
  rcases nv with k | b | _ | _
  · by_cases hcond : (!isSafeInt (.int k) || jsLt (.int k) (.int 0)) = true
    · rw [if_pos hcond]
      simp only [Bool.or_eq_true, Bool.not_eq_true', isSafeInt, jsLt, Bool.and_eq_true, decide_eq_true_eq, Bool.and_eq_false_iff, decide_eq_false_iff_not, not_le] at hcond
      constructor
      · rintro _ ⟨k', hk', h0, hM⟩
        cases hk'
        rcases hcond with h | h
        · rcases h with h | h <;> omega
        · omega
      · intro _
        rfl
    · rw [if_neg hcond]
      simp only [Bool.or_eq_true, Bool.not_eq_true', isSafeInt, jsLt, Bool.and_eq_true, decide_eq_true_eq, not_or, Bool.not_eq_false] at hcond
      obtain ⟨⟨h1, h2⟩, h3⟩ := hcond
      simp only [decide_eq_true_eq, not_lt] at h3
      constructor
      · intro h
        exact absurd h (by simp)
      · intro hne
        exact absurd ⟨k, rfl, h3, h2⟩ hne
  · simp [isSafeInt]
  · simp [isSafeInt]
  · simp [isSafeInt]

/-- C2: `take(n)` fails with the invalid-count error exactly when `n` is
not a non-negative safe integer; otherwise, for every sequence producing
the values `vs` and then done (and also for every sequence producing an
infinite stream `g`), the returned node yields exactly the first
`min(n, number of remaining values)` values and then stays done forever,
and reading its `length` returns that finite count. -/
theorem C2_theorem : (∀ (nv : Val) (c : Chain), takeR nv c = .error .invalidCount ↔ ¬ ∃ k : Int, nv = .int k ∧ 0 ≤ k ∧ k ≤ MAX_SAFE) ∧ (∀ (c : Chain) (vs : List Val) (n : Int) (t : Chain), 0 ≤ n → Produces c vs → takeR (.int n) c = .ok t → Produces t (vs.take n.toNat) ∧ ∃ F L tL, lengthGet F t = some (.int L, tL) ∧ L = min n (vs.length : Int)) ∧ (∀ (c : Chain) (g : Nat → Val) (n : Int) (t : Chain), 0 ≤ n → InfProduces c g → takeR (.int n) c = .ok t → Produces t ((List.range n.toNat).map g) ∧ ∃ F tL, lengthGet F t = some (.int n, tL)) := by
  refine ⟨takeR_error_iff, ?_, ?_⟩
  · intro c vs n t hn hp ht
    obtain ⟨⟨h0, hM⟩, hshape⟩ := takeR_ok_shape ht
    subst hshape
    exact ⟨take_produces_finite h0 hM hp, take_length_finite h0 hM hp⟩
  · intro c g n t hn hp ht
    obtain ⟨⟨h0, hM⟩, hshape⟩ := takeR_ok_shape ht
    subst hshape
    exact ⟨take_produces_inf h0 hM hp, take_length_inf h0 hM hp⟩
theorem rangeNext_root_inv {f : Nat} {cl : Closure} {pc : GenPC} {st : NState} {it : Iter} {c' : Chain} (hbuf : st.preGen = []) (h : rangeNext f (.root cl pc st) = some (it, c')) : it = (genNext cl pc st.currentValue).1 ∧ c' = .root cl (genNext cl pc st.currentValue).2.1 { st with currentValue := it.value, index := bumpIndex st.index, genCount := bumpIndex st.genCount } := by
  match f with
  | 0 => simp [rangeNext, jsCore] at h
  | 1 =>
    unfold rangeNext at h
    rw [jsCore.eq_def] at h
    dsimp only [stOf] at h
    rw [hbuf] at h
    simp [jsCore] at h
  | g + 2 =>
    unfold rangeNext at h
    rw [jsCore.eq_def] at h
    dsimp only [stOf] at h
    rw [hbuf] at h
    rw [jsCore.eq_def] at h
    dsimp only at h
    have h' : (some ((genNext cl pc st.currentValue).1, .root cl (genNext cl pc st.currentValue).2.1 { st with currentValue := (genNext cl pc st.currentValue).1.value, index := bumpIndex st.index, genCount := bumpIndex st.genCount }) : Option (Iter × Chain)) = some (it, c') := h
    obtain ⟨h1, h2⟩ : (genNext cl pc st.currentValue).1 = it ∧ _ = c' := by simpa using h'
    subst h1
    exact ⟨rfl, h2.symm⟩

theorem rangeNext_root_any (cl : Closure) (pc : GenPC) (st : NState) (hbuf : st.preGen = []) : rangeNext 2 (.root cl pc st) = some ((genNext cl pc st.currentValue).1, .root cl (genNext cl pc st.currentValue).2.1 { st with currentValue := (genNext cl pc st.currentValue).1.value, index := bumpIndex st.index, genCount := bumpIndex st.genCount }) := by
  simp [rangeNext, jsCore, stOf, withSt, hbuf]

theorem rootDF_genNext {cl : Closure} {pc : GenPC} {st : NState} (hd : pc = .finished ∨ (pc = .running ∧ isEnded cl (advanceCV cl st.currentValue) = true) ∨ (pc = .fresh ∧ isEnded cl st.currentValue = true)) : (genNext cl pc st.currentValue).1 = doneIter ∧ (genNext cl pc st.currentValue).2.1 = .finished := by
  rcases hd with rfl | ⟨rfl, he⟩ | ⟨rfl, he⟩
  · exact ⟨rfl, rfl⟩
  · simp [genNext, he]
  · simp [genNext, he]

theorem rootDF_step {c : Chain} {it : Iter} {c' : Chain} (h : RootDF c) (hs : StepTo c it c') : it = doneIter ∧ RootDF c' := by
  obtain ⟨cl, pc, st, rfl, hbuf, hd⟩ := h
  obtain ⟨f, hf⟩ := hs
  obtain ⟨h1, h2⟩ := rangeNext_root_inv hbuf hf
  obtain ⟨hg1, hg2⟩ := rootDF_genNext hd
  rw [hg1] at h1
  subst h1
  subst h2
  exact ⟨rfl, cl, _, _, rfl, hbuf, by rw [hg2]; exact Or.inl rfl⟩

theorem rootDF_can {c : Chain} (h : RootDF c) : ∃ c', StepTo c doneIter c' := by
  obtain ⟨cl, pc, st, rfl, hbuf, hd⟩ := h
  obtain ⟨hg1, _⟩ := rootDF_genNext hd
  have hr := rangeNext_root_any cl pc st hbuf
  rw [hg1] at hr
  exact ⟨_, 2, hr⟩

theorem rootDF_doneForever {c : Chain} (h : RootDF c) : DoneForever c := by
  intro l c2 hr
  induction hr with
  | nil => exact ⟨by simp, rootDF_can h⟩
  | cons hs hrr ih =>
    obtain ⟨hit, h2⟩ := rootDF_step h hs
    obtain ⟨m1, m2⟩ := ih h2
    exact ⟨by
      intro it2 hm
      rcases List.mem_cons.mp hm with h1 | h1
      · rw [h1]; exact hit
      · exact m1 it2 h1, m2⟩
theorem rangeNext_rootInf (ix gc : Val) : rangeNext 2 (.root clInf .running (stInfAt ix gc)) = some (⟨false, .inf true⟩, .root clInf .running (stInfAt (bumpIndex ix) (bumpIndex gc))) := by
  simp [rangeNext, jsCore, stOf, withSt, stInfAt, genNext, advanceCV, isEnded, isFiniteV, clInf, jsAbs, jsLt, signTimesInf]

theorem wInf_run (m : Nat) : ∀ ix gc : Val, ∃ ix2 gc2, Run (.root clInf .running (stInfAt ix gc)) (List.replicate m ⟨false, .inf true⟩) (.root clInf .running (stInfAt ix2 gc2)) := by
  induction m with
  | zero => exact fun ix gc => ⟨ix, gc, Run.nil _⟩
  | succ m ih =>
    intro ix gc
    obtain ⟨ix2, gc2, hr⟩ := ih (bumpIndex ix) (bumpIndex gc)
    exact ⟨ix2, gc2, Run.cons ⟨2, rangeNext_rootInf ix gc⟩ hr⟩

theorem wInf_infProduces : InfProduces wInf gInf := by
  intro nn
  match nn with
  | 0 => exact ⟨wInf, Run.nil _⟩
  | m + 1 =>
    have hlist : valIters ((List.range (m + 1)).map gInf) = ⟨false, .int MAX_SAFE⟩ :: List.replicate m ⟨false, .inf true⟩ := by
      rw [List.range_succ_eq_map, List.map_cons, List.map_map]
      simp only [valIters, List.map_cons]
      congr 1
      have h1 : (gInf ∘ Nat.succ) = fun _ => Val.inf true := by
        funext j
        simp [gInf]
      rw [h1]
      have h2 : ∀ l : List Nat, List.map (fun v => Iter.mk false v) (List.map (fun _ => Val.inf true) l) = List.replicate l.length ⟨false, .inf true⟩ := by
        intro l
        induction l with
        | nil => rfl
        | cons a l ih => simp [ih, List.replicate_succ]
      have h3 := h2 (List.range m)
      rw [List.length_range] at h3
      exact h3
    rw [hlist]
    have hstep1 : rangeNext 10 wInf = some (⟨false, .int MAX_SAFE⟩, wInfa) := rfl
    match m with
    | 0 => exact ⟨wInfa, Run.cons ⟨10, hstep1⟩ (Run.nil _)⟩
    | k + 1 =>
      have hstep2 : rangeNext 10 wInfa = some (⟨false, .inf true⟩, .root clInf .running (stInfAt (.int 2) (.int 2))) := rfl
      obtain ⟨ix2, gc2, hr⟩ := wInf_run k (.int 2) (.int 2)
      exact ⟨_, Run.cons ⟨10, hstep1⟩ (Run.cons ⟨10, hstep2⟩ hr)⟩
/-- C2 witness: `range(0, 2)` produces `[0, 1]`; `take(-1)` raises the
invalid-count error; `take(2)` yields both values with length 2; and on
the infinite `range(MAX_SAFE, Infinity)` stream, `take(3)` yields its
first three values with length 3. -/
theorem C2_theorem_witness : (takeR (.int (-1)) w2 = .error .invalidCount) ∧ Produces w2 [.int 0, .int 1] ∧ (Produces wT2 ([Val.int 0, Val.int 1].take (Int.toNat 2)) ∧ ∃ F L tL, lengthGet F wT2 = some (.int L, tL) ∧ L = min 2 (([Val.int 0, Val.int 1].length : Int))) ∧ InfProduces wInf gInf ∧ (Produces wTInf ((List.range (Int.toNat 3)).map gInf) ∧ ∃ F tL, lengthGet F wTInf = some (.int 3, tL)) := by
  have hprod : Produces w2 [.int 0, .int 1] := ⟨w2b, Run.cons ⟨10, rfl⟩ (Run.cons ⟨10, rfl⟩ (Run.nil _)), rootDF_doneForever ⟨_, _, _, rfl, rfl, Or.inr (Or.inl ⟨rfl, rfl⟩)⟩⟩
  refine ⟨(C2_theorem.1 (.int (-1)) w2).mpr ?_, hprod, C2_theorem.2.1 w2 [.int 0, .int 1] 2 wT2 (by norm_num) hprod rfl, wInf_infProduces, C2_theorem.2.2 wInf gInf 3 wTInf (by norm_num) wInf_infProduces rfl⟩
  rintro ⟨k, hk, h0, _⟩
  cases hk
  omega
theorem mkRange_int_ok {a b st : Int} (ha1 : -MAX_SAFE ≤ a) (ha2 : a ≤ MAX_SAFE) (hb1 : -MAX_SAFE ≤ b) (hb2 : b ≤ MAX_SAFE) (hs1 : -MAX_SAFE ≤ st) (hs2 : st ≤ MAX_SAFE) (hs0 : st ≠ 0) : mkRange (.int a) (.int b) (some (.int st)) = .ok (rootFresh ⟨a, .int b, st⟩) := by
  unfold mkRange
  have h1 : isSafeInt (.int a) = true := by simp [isSafeInt]; omega
  have h2 : isSafeInt (.int b) = true := by simp [isSafeInt]; omega
  have h3 : isSafeInt (.int st) = true := by simp [isSafeInt]; omega
  have h4 : truthy (.int st) = true := by simp [truthy]; exact hs0
  simp [h1, h2, h3, h4, isFiniteV, intOf, rootFresh]

theorem genNext_congr {cl cl2 : Closure} (hend : cl.endV = cl2.endV) (hstep : cl.step = cl2.step) (pc : GenPC) (cv : Val) : genNext cl pc cv = genNext cl2 pc cv := by
  cases pc <;> simp [genNext, isEnded, advanceCV, hend, hstep]

theorem rrel_step {cl cl2 : Closure} {c1 c2 : Chain} (hend : cl.endV = cl2.endV) (hstep : cl.step = cl2.step) (h : RRel cl cl2 c1 c2) {it1 : Iter} {d1 : Chain} (h1 : StepTo c1 it1 d1) {it2 : Iter} {d2 : Chain} (h2 : StepTo c2 it2 d2) : it1 = it2 ∧ RRel cl cl2 d1 d2 := by
  obtain ⟨pc, st1, st2, rfl, rfl, hb1, hb2, hcv⟩ := h
  obtain ⟨f1, hf1⟩ := h1
  obtain ⟨f2, hf2⟩ := h2
  obtain ⟨e1, e2⟩ := rangeNext_root_inv hb1 hf1
  obtain ⟨e3, e4⟩ := rangeNext_root_inv hb2 hf2
  have hg : genNext cl pc st1.currentValue = genNext cl2 pc st2.currentValue := by
    rw [hcv]
    exact genNext_congr hend hstep pc st2.currentValue
  subst e1
  subst e3
  refine ⟨by rw [hg], (genNext cl pc st1.currentValue).2.1, _, _, e2, by rw [hg]; exact e4, ?_, ?_, ?_⟩
  · exact hb1
  · exact hb2
  · show (genNext cl pc st1.currentValue).1.value = (genNext cl2 pc st2.currentValue).1.value
    rw [hg]

theorem rrel_runs {cl cl2 : Closure} (hend : cl.endV = cl2.endV) (hstep : cl.step = cl2.step) {c1 c2 : Chain} (h : RRel cl cl2 c1 c2) : ∀ {l1 : List Iter} {d1 : Chain} {l2 : List Iter} {d2 : Chain}, Run c1 l1 d1 → Run c2 l2 d2 → l1.length = l2.length → l1 = l2 := by
  intro l1 d1 l2 d2 hr1 hr2 hlen
  induction hr1 generalizing c2 l2 d2 with
  | nil =>
    cases hr2 with
    | nil => rfl
    | cons hs hr => simp at hlen
  | cons hs1 hr1 ih =>
    cases hr2 with
    | nil => simp at hlen
    | cons hs2 hr2 =>
      obtain ⟨hit, hrel⟩ := rrel_step hend hstep h hs1 hs2
      rw [hit]
      rw [ih hrel hr2 (by simpa using hlen)]

theorem reverseR_fresh {s e t : Int} (h1 : -MAX_SAFE ≤ e - t) (h2 : e - t ≤ MAX_SAFE) (h3 : -MAX_SAFE ≤ s - t) (h4 : s - t ≤ MAX_SAFE) (h5 : -MAX_SAFE ≤ t) (h6 : t ≤ MAX_SAFE) (h0 : t ≠ 0) : reverseR 1 (rootFresh ⟨s, .int e, t⟩) = some (.ok (rootFresh ⟨e - t, .int (s - t), -t⟩)) := by
  have hmk := @mkRange_int_ok (e - t) (s - t) (-t) h1 h2 h3 h4 (by omega) (by omega) (by omega)
  simp only [reverseR, rootFresh, freshSt, stOf, isFiniteV, truthy, jsSub, Bool.not_true, Bool.false_eq_true, if_false, decide_True, Bool.not_eq_true]
  simp only [show (!(decide ((0 : Int) = 0))) = false from rfl, Bool.not_false, if_true]
  exact congrArg some hmk

theorem reverseR_rootAt {s e t v : Int} {ix gc : Val} (htr : truthy ix = true) (h1 : -MAX_SAFE ≤ e - t) (h2 : e - t ≤ MAX_SAFE) (h3 : -MAX_SAFE ≤ v) (h4 : v ≤ MAX_SAFE) (h5 : -MAX_SAFE ≤ t) (h6 : t ≤ MAX_SAFE) (h0 : t ≠ 0) : reverseR 1 (rootAt ⟨s, .int e, t⟩ v ix gc) = some (.ok (rootFresh ⟨e - t, .int v, -t⟩)) := by
  have hmk := @mkRange_int_ok (e - t) v (-t) h1 h2 h3 h4 (by omega) (by omega) (by omega)
  simp only [reverseR, rootAt, stOf, isFiniteV, jsSub, htr, Bool.not_true, Bool.false_eq_true, if_false]
  exact congrArg some hmk

theorem abs_clamp_bounds {v t : Int} (hv : |v| ≤ MAX_SAFE - |t|) : -MAX_SAFE ≤ v + t ∧ v + t ≤ MAX_SAFE ∧ -MAX_SAFE ≤ v ∧ v ≤ MAX_SAFE := by
  rcases abs_cases v with ⟨h1, h1s⟩ | ⟨h1, h1s⟩ <;> rcases abs_cases t with ⟨h2, h2s⟩ | ⟨h2, h2s⟩ <;> rw [h1, h2] at hv <;> exact ⟨by omega, by omega, by omega, by omega⟩

theorem c9_first_step {a b t v : Int} (hv : |v| ≤ MAX_SAFE - |t|) {ix gc : Val} {it1 : Iter} {d1 : Chain} (h1 : StepTo (rootAt ⟨a, .int b, t⟩ v ix gc) it1 d1) {it2 : Iter} {d2 : Chain} (h2 : StepTo (rootFresh ⟨v + t, .int b, t⟩) it2 d2) : it1 = it2 ∧ RRel ⟨a, .int b, t⟩ ⟨v + t, .int b, t⟩ d1 d2 := by
  obtain ⟨f1, hf1⟩ := h1
  obtain ⟨f2, hf2⟩ := h2
  simp only [rootAt] at hf1
  simp only [rootFresh] at hf2
  obtain ⟨e1, e2⟩ := rangeNext_root_inv rfl hf1
  obtain ⟨e3, e4⟩ := rangeNext_root_inv rfl hf2
  simp only [freshSt] at e3 e4
  dsimp only at e1 e2 e3 e4
  have hc2 : jsLt (Val.int (MAX_SAFE - |t|)) (jsAbs (Val.int v)) = false := by
    simp only [jsAbs, jsLt]
    simp only [decide_eq_false_iff_not]
    omega
  have hgen1 : genNext ⟨a, Val.int b, t⟩ .running (Val.int v) = if isEnded ⟨a, Val.int b, t⟩ (Val.int (v + t)) then (doneIter, GenPC.finished, Val.int (v + t)) else (⟨false, Val.int (v + t)⟩, GenPC.running, Val.int (v + t)) := by
    simp only [genNext, advanceCV, hc2, Bool.false_eq_true, if_false, jsAdd]
  have hgen2 : genNext ⟨v + t, Val.int b, t⟩ .fresh (Val.int (v + t)) = if isEnded ⟨a, Val.int b, t⟩ (Val.int (v + t)) then (doneIter, GenPC.finished, Val.int (v + t)) else (⟨false, Val.int (v + t)⟩, GenPC.running, Val.int (v + t)) := by
    have hiE : isEnded ⟨v + t, Val.int b, t⟩ (Val.int (v + t)) = isEnded ⟨a, Val.int b, t⟩ (Val.int (v + t)) := rfl
    simp only [genNext, hiE]
  subst e1
  subst e3
  rw [hgen1] at e2 ⊢
  rw [hgen2] at e4 ⊢
  cases hE : isEnded ⟨a, Val.int b, t⟩ (Val.int (v + t)) with
  | false =>
      simp only [hE, Bool.false_eq_true, if_false] at e2 e4 ⊢
      exact ⟨trivial, GenPC.running, _, _, e2, e4, rfl, rfl, rfl⟩
  | true =>
      simp only [hE, if_true] at e2 e4 ⊢
      exact ⟨trivial, GenPC.finished, _, _, e2, e4, rfl, rfl, rfl⟩

theorem run_eq_of_first {cl cl2 : Closure} (hend : cl.endV = cl2.endV) (hstep : cl.step = cl2.step) {c1 c2 : Chain} (hfirst : ∀ it1 d1 it2 d2, StepTo c1 it1 d1 → StepTo c2 it2 d2 → it1 = it2 ∧ RRel cl cl2 d1 d2) {l1 : List Iter} {d1 : Chain} {l2 : List Iter} {d2 : Chain} (hr1 : Run c1 l1 d1) (hr2 : Run c2 l2 d2) (hlen : l1.length = l2.length) : l1 = l2 := by
  cases hr1 with
  | nil =>
      cases hr2 with
      | nil => rfl
      | cons hs hr => simp at hlen
  | cons hs1 hr1 =>
      cases hr2 with
      | nil => simp at hlen
      | cons hs2 hr2 =>
          obtain ⟨hit, hrel⟩ := hfirst _ _ _ _ hs1 hs2
          rw [hit, rrel_runs hend hstep hrel hr1 hr2 (by simpa using hlen)]

theorem c9_fresh_pair {a b t : Int} (ha1 : -MAX_SAFE ≤ a) (ha2 : a ≤ MAX_SAFE) (hb1 : -MAX_SAFE ≤ b) (hb2 : b ≤ MAX_SAFE) (ht1 : -MAX_SAFE ≤ t) (ht2 : t ≤ MAX_SAFE) (ht0 : t ≠ 0) (has1 : -MAX_SAFE ≤ a - t) (has2 : a - t ≤ MAX_SAFE) (hbs1 : -MAX_SAFE ≤ b - t) (hbs2 : b - t ≤ MAX_SAFE) : reverseR 1 (rootFresh ⟨a, .int b, t⟩) = some (.ok (rootFresh ⟨b - t, .int (a - t), -t⟩)) ∧ reverseR 1 (rootFresh ⟨b - t, .int (a - t), -t⟩) = some (.ok (rootFresh ⟨a, .int b, t⟩)) := by
  refine ⟨reverseR_fresh hbs1 hbs2 has1 has2 ht1 ht2 ht0, ?_⟩
  have h2 := @reverseR_fresh (b - t) (a - t) (-t) (by omega) (by omega) (by omega) (by omega) (by omega) (by omega) (by omega)
  rw [show (a - t) - -t = a from by ring, show (b - t) - -t = b from by ring, show -(-t) = t from by ring] at h2
  exact h2

theorem c9_running_pair {a b t v : Int} {ix gc : Val} (htr : truthy ix = true) (hv : |v| ≤ MAX_SAFE - |t|) (hb1 : -MAX_SAFE ≤ b) (hb2 : b ≤ MAX_SAFE) (ht1 : -MAX_SAFE ≤ t) (ht2 : t ≤ MAX_SAFE) (ht0 : t ≠ 0) (hbs1 : -MAX_SAFE ≤ b - t) (hbs2 : b - t ≤ MAX_SAFE) : reverseR 1 (rootAt ⟨a, .int b, t⟩ v ix gc) = some (.ok (rootFresh ⟨b - t, .int v, -t⟩)) ∧ reverseR 1 (rootFresh ⟨b - t, .int v, -t⟩) = some (.ok (rootFresh ⟨v + t, .int b, t⟩)) ∧ ∀ l1 d1 l2 d2, Run (rootAt ⟨a, .int b, t⟩ v ix gc) l1 d1 → Run (rootFresh ⟨v + t, .int b, t⟩) l2 d2 → l1.length = l2.length → l1 = l2 := by
  obtain ⟨hvt1, hvt2, hv1, hv2⟩ := abs_clamp_bounds hv
  refine ⟨reverseR_rootAt htr hbs1 hbs2 hv1 hv2 ht1 ht2 ht0, ?_, ?_⟩
  · have h2 := @reverseR_fresh (b - t) v (-t) (by omega) (by omega) (by omega) (by omega) (by omega) (by omega) (by omega)
    rw [show v - -t = v + t from by ring, show (b - t) - -t = b from by ring, show -(-t) = t from by ring] at h2
    exact h2
  · intro l1 d1 l2 d2 hr1 hr2 hlen
    have hfst : ∀ it1 d1 it2 d2, StepTo (rootAt ⟨a, .int b, t⟩ v ix gc) it1 d1 → StepTo (rootFresh ⟨v + t, .int b, t⟩) it2 d2 → it1 = it2 ∧ RRel ⟨a, .int b, t⟩ ⟨v + t, .int b, t⟩ d1 d2 := fun p q r s hs1 hs2 => c9_first_step hv hs1 hs2
    exact run_eq_of_first (show Closure.endV ⟨a, .int b, t⟩ = Closure.endV ⟨v + t, .int b, t⟩ from rfl) (show Closure.step ⟨a, .int b, t⟩ = Closure.step ⟨v + t, .int b, t⟩ from rfl) hfst hr1 hr2 hlen

theorem gnv_plain_done {f : Nat} {cl : Closure} {st : NState} {parent : Chain} {it : Iter} {niP : Val} {p' : Chain} {ci : Val} (hj : jsCore f true parent (.int 0) = some (it, niP, p')) (hd : it.done = true) : jsCore (f + 1) false (.node cl none none none st parent) ci = some (it, bumpIndex ci, .node cl none none none st p') := by
  rw [jsCore.eq_def]
  dsimp only
  rw [hj]
  simp [hd]

theorem gnv_plain_yield {f : Nat} {cl : Closure} {st : NState} {parent : Chain} {it : Iter} {niP : Val} {p' : Chain} {ci : Val} (hj : jsCore f true parent (.int 0) = some (it, niP, p')) (hd : it.done = false) : jsCore (f + 1) false (.node cl none none none st parent) ci = some (⟨false, it.value⟩, bumpIndex ci, .node cl none none none st p') := by
  rw [jsCore.eq_def]
  dsimp only
  rw [hj]
  simp [hd]

theorem rangeNext_plainnode_inv {f : Nat} {cl : Closure} {st : NState} {parent : Chain} {it : Iter} {c' : Chain} (hbuf : st.preGen = []) (h : rangeNext f (.node cl none none none st parent) = some (it, c')) : ∃ pit p', StepTo parent pit p' ∧ ((pit.done = true ∧ it = pit) ∨ (pit.done = false ∧ it = ⟨false, pit.value⟩)) ∧ c' = .node cl none none none { st with index := bumpIndex st.index, currentValue := it.value, genCount := bumpIndex st.genCount } p' := by
  match f with
  | 0 => simp [rangeNext, jsCore] at h
  | 1 =>
    unfold rangeNext at h
    rw [jsCore.eq_def] at h
    dsimp only [stOf] at h
    rw [hbuf] at h
    simp [jsCore] at h
  | g + 2 =>
    unfold rangeNext at h
    rw [jsCore.eq_def] at h
    dsimp only [stOf] at h
    rw [hbuf] at h
    rcases hg : jsCore (g + 1) false (.node cl none none none st parent) st.index with _ | ⟨⟨it1, ni1, c1⟩⟩ <;> rw [hg] at h
    · simp at h
    · have h' : (some (it1, withSt c1 { stOf c1 with index := ni1, currentValue := it1.value, genCount := bumpIndex (stOf c1).genCount }) : Option (Iter × Chain)) = some (it, c') := h
      obtain ⟨h1, h2⟩ : it1 = it ∧ withSt c1 { stOf c1 with index := ni1, currentValue := it1.value, genCount := bumpIndex (stOf c1).genCount } = c' := by simpa using h'
      subst h1
      rw [jsCore.eq_def] at hg
      dsimp only at hg
      rcases hp : jsCore g true parent (.int 0) with _ | ⟨⟨pit, pni, p'⟩⟩ <;> rw [hp] at hg
      · simp at hg
      · have hstep : StepTo parent pit p' := ⟨g, by unfold rangeNext; rw [hp]; rfl⟩
        dsimp only at hg
        by_cases hd : pit.done = true
        · simp only [hd, if_true] at hg
          obtain ⟨g1, g2, g3⟩ := some3_inj hg
          subst g1; subst g2; subst g3
          exact ⟨pit, p', hstep, Or.inl ⟨hd, rfl⟩, h2.symm⟩
        · simp only [hd, Bool.false_eq_true, if_false] at hg
          obtain ⟨g1, g2, g3⟩ := some3_inj hg
          subst g1; subst g2; subst g3
          exact ⟨pit, p', hstep, Or.inr ⟨eq_false_of_ne_true hd, rfl⟩, h2.symm⟩

theorem plainDF_step {c : Chain} {it : Iter} {c' : Chain} (h : PlainDF c) (hs : StepTo c it c') : it = doneIter ∧ PlainDF c' := by
  obtain ⟨cl, st, parent, rfl, hbuf, hdf⟩ := h
  obtain ⟨f, hf⟩ := hs
  obtain ⟨pit, p', hstep, hcase, hc'⟩ := rangeNext_plainnode_inv hbuf hf
  obtain ⟨hpd, hdf'⟩ := rootDF_step hdf hstep
  subst hpd
  rcases hcase with ⟨_, hit⟩ | ⟨hfalse, _⟩
  · subst hit
    exact ⟨rfl, cl, _, p', hc', hbuf, hdf'⟩
  · simp [doneIter] at hfalse

theorem plainDF_can {c : Chain} (h : PlainDF c) : ∃ c', StepTo c doneIter c' := by
  obtain ⟨cl, st, parent, rfl, hbuf, hdf⟩ := h
  obtain ⟨p0, hp0⟩ := rootDF_can hdf
  obtain ⟨f, niP, hj⟩ := stepTo_jsCore hp0
  have hg : jsCore (f + 1) false (Chain.node cl none none none st parent) (stOf (Chain.node cl none none none st parent)).index = some (doneIter, bumpIndex (stOf (Chain.node cl none none none st parent)).index, Chain.node cl none none none st p0) := gnv_plain_done hj rfl
  have hbuf' : (stOf (Chain.node cl none none none st parent)).preGen = [] := hbuf
  have hr := rangeNext_of_gnv hbuf' hg
  exact ⟨_, _, hr⟩

theorem plainDF_doneForever {c : Chain} (h : PlainDF c) : DoneForever c := by
  intro l c2 hr
  induction hr with
  | nil => exact ⟨by simp, plainDF_can h⟩
  | cons hs hrr ih =>
    obtain ⟨hit, h2⟩ := plainDF_step h hs
    obtain ⟨m1, m2⟩ := ih h2
    exact ⟨by
      intro it2 hm
      rcases List.mem_cons.mp hm with h1 | h1
      · rw [h1]; exact hit
      · exact m1 it2 h1, m2⟩

theorem buffered_run (cl : Closure) (parent : Chain) : ∀ (buf : List (Iter × Val)) (st : NState), st.preGen = buf → ∃ st2, Run (.node cl none none none st parent) (buf.map Prod.fst) (.node cl none none none st2 parent) ∧ st2.preGen = [] := by
  intro buf
  induction buf with
  | nil => exact fun st hb => ⟨st, Run.nil _, hb⟩
  | cons p rest ih =>
      intro st hb
      obtain ⟨it, ni⟩ := p
      have hstep : rangeNext 1 (.node cl none none none st parent) = some (it, .node cl none none none { st with preGen := rest, index := ni, currentValue := it.value, genCount := bumpIndex st.genCount } parent) := by
        unfold rangeNext
        rw [jsCore.eq_def]
        dsimp only [stOf]
        rw [hb]
        rfl
      obtain ⟨st2, hr, hb2⟩ := ih { st with preGen := rest, index := ni, currentValue := it.value, genCount := bumpIndex st.genCount } rfl
      exact ⟨st2, Run.cons ⟨1, hstep⟩ hr, hb2⟩

theorem toRevBuf_fsts : ∀ (ws : List Val) (i : Nat), (toRevBuf i ws).map Prod.fst = valIters ws := by
  intro ws
  induction ws with
  | nil => intro i; rfl
  | cons v r ih =>
      intro i
      simp only [toRevBuf, List.map_cons, valIters, ih]

theorem toList_succ (f : Nat) (c : Chain) : toList (f + 1) c = (match rangeNext f c with | none => none | some (it, c') => if it.done = true then some ([], c') else (match toList f c' with | none => none | some (l, c'') => some (it.value :: l, c''))) := rfl

theorem toList_of_run : ∀ {vs : List Val} {c d e : Chain}, Run c (valIters vs) d → StepTo d doneIter e → ∃ F cend, toList F c = some (vs, cend) := by
  intro vs
  induction vs with
  | nil =>
      intro c d e hr hs
      cases hr with
      | nil =>
          obtain ⟨f, hf⟩ := hs
          refine ⟨f + 1, e, ?_⟩
          rw [toList_succ, hf]
          rfl
  | cons v r ih =>
      intro c d e hr hs
      rw [show valIters (v :: r) = ⟨false, v⟩ :: valIters r from rfl] at hr
      cases hr with
      | cons hstep hrun =>
          obtain ⟨F1, cend, h1⟩ := ih hrun hs
          obtain ⟨f, hf⟩ := hstep
          refine ⟨(max f F1) + 1, cend, ?_⟩
          have hf' := rangeNext_mono_le (Nat.le_max_left f F1) hf
          have h1' := toList_mono_le (Nat.le_max_right f F1) h1
          rw [toList_succ, hf']
          dsimp only
          rw [h1']
          rfl

theorem reverseR_node {F : Nat} {cl : Closure} {flt : Option (Val → Val → Bool)} {mp : Option (Val → Val → Val)} {stp : Option (Val → Val → Bool)} {st : NState} {parent : Chain} {values : List Val} {crest : Chain} (hfin : st.isFin = true) (htl : toList F (cloneR (.node cl flt mp stp st parent)) = some (values, crest)) : reverseR F (.node cl flt mp stp st parent) = some (.ok (.node cl none none none { freshSt cl with currentValue := cl.endV, preGen := toRevBuf 0 values.reverse, origVals := some (toRevBuf 0 values.reverse), cachedLength := some (.int (values.length : Int)) } (rootFresh ⟨0, .int 0, 1⟩))) := by
  simp only [reverseR, stOf, hfin, Bool.not_true, Bool.false_eq_true, if_false, htl]
  rfl

theorem c9_node_pair {cl : Closure} {flt : Option (Val → Val → Bool)} {mp : Option (Val → Val → Val)} {stp : Option (Val → Val → Bool)} {st : NState} {parent : Chain} {F : Nat} {values : List Val} {crest : Chain} (hfin : st.isFin = true) (hfcl : isFiniteV cl.endV = true) (htl : toList F (cloneR (.node cl flt mp stp st parent)) = some (values, crest)) : ∃ r1 r2, reverseR F (.node cl flt mp stp st parent) = some (.ok r1) ∧ (∃ F2, reverseR F2 r1 = some (.ok r2)) ∧ Produces r2 values := by
  have h1 := reverseR_node hfin htl
  have hdfInner : RootDF (rootFresh ⟨0, .int 0, 1⟩) := ⟨⟨0, .int 0, 1⟩, .fresh, freshSt ⟨0, .int 0, 1⟩, rfl, rfl, Or.inr (Or.inr ⟨rfl, rfl⟩)⟩
  have hclone : cloneR (.node cl none none none { freshSt cl with currentValue := cl.endV, preGen := toRevBuf 0 values.reverse, origVals := some (toRevBuf 0 values.reverse), cachedLength := some (.int (values.length : Int)) } (rootFresh ⟨0, .int 0, 1⟩)) = .node cl none none none { currentValue := cl.endV, index := .int 0, cachedLength := some (.int (values.length : Int)), preGen := toRevBuf 0 values.reverse, origVals := none, genCount := .int 0, isFin := isFiniteV cl.endV } (rootFresh ⟨0, .int 0, 1⟩) := rfl
  obtain ⟨st2, hrun2, hb2⟩ := buffered_run cl (rootFresh ⟨0, .int 0, 1⟩) (toRevBuf 0 values.reverse) { currentValue := cl.endV, index := .int 0, cachedLength := some (.int (values.length : Int)), preGen := toRevBuf 0 values.reverse, origVals := none, genCount := .int 0, isFin := isFiniteV cl.endV } rfl
  rw [toRevBuf_fsts values.reverse 0] at hrun2
  have hPD : PlainDF (.node cl none none none st2 (rootFresh ⟨0, .int 0, 1⟩)) := ⟨cl, st2, rootFresh ⟨0, .int 0, 1⟩, rfl, hb2, hdfInner⟩
  obtain ⟨e, he⟩ := plainDF_can hPD
  obtain ⟨F2, cend, htl2⟩ := toList_of_run hrun2 he
  rw [← hclone] at htl2
  have hfinR : ({ freshSt cl with currentValue := cl.endV, preGen := toRevBuf 0 values.reverse, origVals := some (toRevBuf 0 values.reverse), cachedLength := some (.int (values.length : Int)) } : NState).isFin = true := hfcl
  have h2 := reverseR_node hfinR htl2
  rw [List.reverse_reverse, List.length_reverse] at h2
  obtain ⟨st3, hrun3, hb3⟩ := buffered_run cl (rootFresh ⟨0, .int 0, 1⟩) (toRevBuf 0 values) { freshSt cl with currentValue := cl.endV, preGen := toRevBuf 0 values, origVals := some (toRevBuf 0 values), cachedLength := some (.int (values.length : Int)) } rfl
  rw [toRevBuf_fsts values 0] at hrun3
  have hPD3 : PlainDF (.node cl none none none st3 (rootFresh ⟨0, .int 0, 1⟩)) := ⟨cl, st3, rootFresh ⟨0, .int 0, 1⟩, rfl, hb3, hdfInner⟩
  exact ⟨_, _, h1, ⟨F2, h2⟩, ⟨_, hrun3, plainDF_doneForever hPD3⟩⟩

/-- C9 (corrected): reverse-of-reverse reproduces the remaining output at
consumption points where done has not yet been returned.  For a fresh
root (within the safe-integer bounds the reconstruction needs),
`reverse().reverse()` literally rebuilds the original root chain; for a
root suspended at an integer value away from the overflow clamp,
`reverse().reverse()` builds the root `range(v + step, end, step)` whose
iteration stream agrees step by step with the original's remaining
stream; and for a derived node whose clone materializes the remaining
values, the double reverse returns a buffered chain producing exactly
those values. -/
theorem C9_theorem :
    (∀ a b t : Int, -MAX_SAFE ≤ a → a ≤ MAX_SAFE → -MAX_SAFE ≤ b → b ≤ MAX_SAFE → -MAX_SAFE ≤ t → t ≤ MAX_SAFE → t ≠ 0 → -MAX_SAFE ≤ a - t → a - t ≤ MAX_SAFE → -MAX_SAFE ≤ b - t → b - t ≤ MAX_SAFE → reverseR 1 (rootFresh ⟨a, .int b, t⟩) = some (.ok (rootFresh ⟨b - t, .int (a - t), -t⟩)) ∧ reverseR 1 (rootFresh ⟨b - t, .int (a - t), -t⟩) = some (.ok (rootFresh ⟨a, .int b, t⟩))) ∧
    (∀ (a b t v : Int) (ix gc : Val), truthy ix = true → |v| ≤ MAX_SAFE - |t| → -MAX_SAFE ≤ b → b ≤ MAX_SAFE → -MAX_SAFE ≤ t → t ≤ MAX_SAFE → t ≠ 0 → -MAX_SAFE ≤ b - t → b - t ≤ MAX_SAFE → reverseR 1 (rootAt ⟨a, .int b, t⟩ v ix gc) = some (.ok (rootFresh ⟨b - t, .int v, -t⟩)) ∧ reverseR 1 (rootFresh ⟨b - t, .int v, -t⟩) = some (.ok (rootFresh ⟨v + t, .int b, t⟩)) ∧ ∀ l1 d1 l2 d2, Run (rootAt ⟨a, .int b, t⟩ v ix gc) l1 d1 → Run (rootFresh ⟨v + t, .int b, t⟩) l2 d2 → l1.length = l2.length → l1 = l2) ∧
    (∀ (cl : Closure) (flt : Option (Val → Val → Bool)) (mp : Option (Val → Val → Val)) (stp : Option (Val → Val → Bool)) (st : NState) (parent : Chain) (F : Nat) (values : List Val), st.isFin = true → isFiniteV cl.endV = true → valsOf F (cloneR (.node cl flt mp stp st parent)) = some values → Produces (.node cl flt mp stp st parent) values → ∃ r1 r2, reverseR F (.node cl flt mp stp st parent) = some (.ok r1) ∧ (∃ F2, reverseR F2 r1 = some (.ok r2)) ∧ Produces r2 values) := by
  refine ⟨?_, ?_, ?_⟩
  · intro a b t ha1 ha2 hb1 hb2 ht1 ht2 ht0 has1 has2 hbs1 hbs2
    exact c9_fresh_pair ha1 ha2 hb1 hb2 ht1 ht2 ht0 has1 has2 hbs1 hbs2
  · intro a b t v ix gc htr hv hb1 hb2 ht1 ht2 ht0 hbs1 hbs2
    exact c9_running_pair htr hv hb1 hb2 ht1 ht2 ht0 hbs1 hbs2
  · intro cl flt mp stp st parent F values hfin hfcl htl hprod
    unfold valsOf at htl
    cases hx : toList F (cloneR (.node cl flt mp stp st parent)) with
    | none => rw [hx] at htl; simp at htl
    | some p =>
        rw [hx] at htl
        obtain ⟨vl, cr⟩ := p
        have hveq : vl = values := by simpa using htl
        subst hveq
        exact c9_node_pair hfin hfcl hx

/-- C9 witness: the three parts instantiated at `range(0, 10, 3)` fresh,
at the same root suspended on the value 3, and at a buffered plain node
holding the value 5. -/
theorem C9_theorem_witness : (reverseR 1 (rootFresh ⟨0, .int 10, 3⟩) = some (.ok (rootFresh ⟨10 - 3, .int (0 - 3), -3⟩)) ∧ reverseR 1 (rootFresh ⟨10 - 3, .int (0 - 3), -3⟩) = some (.ok (rootFresh ⟨0, .int 10, 3⟩))) ∧ (reverseR 1 (rootAt ⟨0, .int 10, 3⟩ 3 (.int 2) (.int 2)) = some (.ok (rootFresh ⟨10 - 3, .int 3, -3⟩)) ∧ reverseR 1 (rootFresh ⟨10 - 3, .int 3, -3⟩) = some (.ok (rootFresh ⟨3 + 3, .int 10, 3⟩)) ∧ ∀ l1 d1 l2 d2, Run (rootAt ⟨0, .int 10, 3⟩ 3 (.int 2) (.int 2)) l1 d1 → Run (rootFresh ⟨3 + 3, .int 10, 3⟩) l2 d2 → l1.length = l2.length → l1 = l2) ∧ (∃ r1 r2, reverseR 20 (Chain.node ⟨0, .int 0, 1⟩ none none none { freshSt ⟨0, .int 0, 1⟩ with preGen := [(⟨false, .int 5⟩, .int 1)] } (rootFresh ⟨0, .int 0, 1⟩)) = some (.ok r1) ∧ (∃ F2, reverseR F2 r1 = some (.ok r2)) ∧ Produces r2 [.int 5]) := by
  refine ⟨C9_theorem.1 0 10 3 (by decide) (by decide) (by decide) (by decide) (by decide) (by decide) (by decide) (by decide) (by decide) (by decide) (by decide), C9_theorem.2.1 0 10 3 3 (.int 2) (.int 2) (by decide) (by decide) (by decide) (by decide) (by decide) (by decide) (by decide) (by decide) (by decide), ?_⟩
  have hprod : Produces (Chain.node ⟨0, .int 0, 1⟩ none none none { freshSt ⟨0, .int 0, 1⟩ with preGen := [(⟨false, .int 5⟩, .int 1)] } (rootFresh ⟨0, .int 0, 1⟩)) [.int 5] := by
    obtain ⟨st2, hrun, hb⟩ := buffered_run ⟨0, .int 0, 1⟩ (rootFresh ⟨0, .int 0, 1⟩) [(⟨false, .int 5⟩, .int 1)] { freshSt ⟨0, .int 0, 1⟩ with preGen := [(⟨false, .int 5⟩, .int 1)] } rfl
    exact ⟨_, hrun, plainDF_doneForever ⟨⟨0, .int 0, 1⟩, st2, rootFresh ⟨0, .int 0, 1⟩, rfl, hb, ⟨⟨0, .int 0, 1⟩, .fresh, freshSt ⟨0, .int 0, 1⟩, rfl, rfl, Or.inr (Or.inr ⟨rfl, rfl⟩)⟩⟩⟩
  exact C9_theorem.2.2 ⟨0, .int 0, 1⟩ none none none { freshSt ⟨0, .int 0, 1⟩ with preGen := [(⟨false, .int 5⟩, .int 1)] } (rootFresh ⟨0, .int 0, 1⟩) 20 [.int 5] rfl rfl (by decide) hprod

theorem gnv_det {f1 f2 : Nat} {c : Chain} {x : Val} {r1 r2 : Iter × Val × Chain} (h1 : jsCore f1 false c x = some r1) (h2 : jsCore f2 false c x = some r2) : r1 = r2 := by
  have h1' := jsCore_mono_le (Nat.le_max_left f1 f2) h1
  have h2' := jsCore_mono_le (Nat.le_max_right f1 f2) h2
  rw [h1'] at h2'
  exact Option.some.inj h2'

theorem jsCore_true_shift {f : Nat} {c : Chain} {x : Val} {it0 : Iter} {ni0 : Val} {rest : List (Iter × Val)} (hbuf : (stOf c).preGen = (it0, ni0) :: rest) : jsCore (f + 1) true c x = some (it0, ni0, withSt c { stOf c with preGen := rest, index := ni0, currentValue := it0.value, genCount := bumpIndex (stOf c).genCount }) := by
  rw [jsCore.eq_def]
  dsimp only
  rw [hbuf]

theorem jsCore_true_inv {f : Nat} {c : Chain} {x : Val} {it : Iter} {ni : Val} {c' : Chain} (hbuf : (stOf c).preGen = []) (h : jsCore (f + 1) true c x = some (it, ni, c')) : ∃ cm, jsCore f false c (stOf c).index = some (it, ni, cm) ∧ c' = withSt cm { stOf cm with index := ni, currentValue := it.value, genCount := bumpIndex (stOf cm).genCount } := by
  rw [jsCore.eq_def] at h
  dsimp only at h
  rw [hbuf] at h
  rcases hg : jsCore f false c (stOf c).index with _ | ⟨⟨it1, ni1, cm⟩⟩ <;> rw [hg] at h
  · simp at h
  · have h' : (some (it1, ni1, withSt cm { stOf cm with index := ni1, currentValue := it1.value, genCount := bumpIndex (stOf cm).genCount }) : Option (Iter × Val × Chain)) = some (it, ni, c') := h
    obtain ⟨e1, e2, e3⟩ := some3_inj h'
    subst e1
    subst e2
    exact ⟨cm, rfl, e3.symm⟩

theorem jsCore_false_root_inv {f : Nat} {cl : Closure} {pc : GenPC} {st : NState} {x : Val} {it : Iter} {ni : Val} {c' : Chain} (h : jsCore f false (.root cl pc st) x = some (it, ni, c')) : it = (genNext cl pc st.currentValue).1 ∧ ni = bumpIndex x ∧ c' = .root cl (genNext cl pc st.currentValue).2.1 { st with currentValue := (genNext cl pc st.currentValue).2.2 } := by
  match f with
  | 0 => simp [jsCore] at h
  | g + 1 =>
    rw [jsCore.eq_def] at h
    dsimp only at h
    have h' : (some ((genNext cl pc st.currentValue).1, bumpIndex x, Chain.root cl (genNext cl pc st.currentValue).2.1 { st with currentValue := (genNext cl pc st.currentValue).2.2 }) : Option (Iter × Val × Chain)) = some (it, ni, c') := h
    obtain ⟨e1, e2, e3⟩ := some3_inj h'
    exact ⟨e1.symm, e2.symm, e3.symm⟩

theorem gnv_node_st_congr : ∀ {f : Nat} {cl : Closure} {fo : Option (Val → Val → Bool)} {mo : Option (Val → Val → Val)} {st : NState} {p : Chain} {x : Val} {it : Iter} {ni : Val} {c' : Chain}, jsCore f false (.node cl fo mo none st p) x = some (it, ni, c') → ∀ st2 : NState, ∃ p', c' = .node cl fo mo none st p' ∧ jsCore f false (.node cl fo mo none st2 p) x = some (it, ni, .node cl fo mo none st2 p') := by
  intro f
  induction f with
  | zero => intro cl fo mo st p x it ni c' h; simp [jsCore] at h
  | succ g ih =>
    intro cl fo mo st p x it ni c' h st2
    rw [jsCore.eq_def] at h
    dsimp only at h
    rcases hp : jsCore g true p (.int 0) with _ | ⟨⟨itp, nip, p1⟩⟩ <;> rw [hp] at h
    · simp at h
    · dsimp only at h
      by_cases hd : itp.done = true
      · simp only [hd, if_true] at h
        obtain ⟨e1, e2, e3⟩ := some3_inj h
        subst e1; subst e2
        refine ⟨p1, e3.symm, ?_⟩
        rw [jsCore.eq_def]
        dsimp only
        rw [hp]
        simp [hd]
      · simp only [hd, Bool.false_eq_true, if_false] at h
        rcases fo with _ | φ
        · obtain ⟨e1, e2, e3⟩ := some3_inj h
          subst e1; subst e2
          refine ⟨p1, e3.symm, ?_⟩
          rw [jsCore.eq_def]
          dsimp only
          rw [hp]
          simp [hd]
        · by_cases hφ : φ itp.value (bumpIndex x) = true
          · simp only [hφ, Bool.not_true, Bool.false_eq_true, if_false] at h
            obtain ⟨e1, e2, e3⟩ := some3_inj h
            subst e1; subst e2
            refine ⟨p1, e3.symm, ?_⟩
            rw [jsCore.eq_def]
            dsimp only
            rw [hp]
            simp [hd, hφ]
          · simp only [eq_false_of_ne_true hφ, Bool.not_false, if_true] at h
            obtain ⟨p', e1, h2⟩ := ih h st2
            refine ⟨p', e1, ?_⟩
            rw [jsCore.eq_def]
            dsimp only
            rw [hp]
            simp only [hd, Bool.false_eq_true, if_false, eq_false_of_ne_true hφ, Bool.not_false, if_true]
            exact h2

theorem lenLoop_cons_inv {F : Nat} {c : Chain} {idx : Val} {a : Iter} {b : Val} {rest : List (Iter × Val)} {c2 : Chain} (h : lengthLoop F c idx = some ((a, b) :: rest, c2)) : ∃ F' cX, F = F' + 1 ∧ getNextValue F' c idx = some (a, b, cX) ∧ a.done = false ∧ lengthLoop F' cX b = some (rest, c2) := by
  match F with
  | 0 => simp [lengthLoop] at h
  | F' + 1 =>
    simp only [lengthLoop] at h
    rcases hg : getNextValue F' c idx with _ | ⟨⟨it, ni, cX⟩⟩ <;> rw [hg] at h
    · simp at h
    · by_cases hd : it.done = true
      · simp only [hd, if_true] at h
        simp at h
      · simp only [hd, Bool.false_eq_true, if_false] at h
        rcases hl : lengthLoop F' cX ni with _ | ⟨⟨l, c''⟩⟩ <;> rw [hl] at h
        · simp at h
        · have h' : (some ((it, ni) :: l, c'') : Option (List (Iter × Val) × Chain)) = some ((a, b) :: rest, c2) := h
          obtain ⟨ha, hb, hl2, hc⟩ : it = a ∧ ni = b ∧ l = rest ∧ c'' = c2 := by
            have h2 := Option.some.inj h'
            simp only [Prod.mk.injEq, List.cons.injEq] at h2
            exact ⟨h2.1.1.1, h2.1.1.2, h2.1.2, h2.2⟩
          subst ha; subst hb; subst hl2; subst hc
          exact ⟨F', cX, rfl, hg, eq_false_of_ne_true hd, hl⟩

theorem lenLoop_nil_inv {F : Nat} {c : Chain} {idx : Val} {c2 : Chain} (h : lengthLoop F c idx = some ([], c2)) : ∃ F' it ni, F = F' + 1 ∧ getNextValue F' c idx = some (it, ni, c2) ∧ it.done = true := by
  match F with
  | 0 => simp [lengthLoop] at h
  | F' + 1 =>
    simp only [lengthLoop] at h
    rcases hg : getNextValue F' c idx with _ | ⟨⟨it, ni, cX⟩⟩ <;> rw [hg] at h
    · simp at h
    · by_cases hd : it.done = true
      · simp only [hd, if_true] at h
        have h' : (some (([] : List (Iter × Val)), cX) : Option (List (Iter × Val) × Chain)) = some ([], c2) := h
        have hc : cX = c2 := by
          have h2 := Option.some.inj h'
          simp only [Prod.mk.injEq] at h2
          exact h2.2
        subst hc
        exact ⟨F', it, ni, rfl, hg, hd⟩
      · simp only [hd, Bool.false_eq_true, if_false] at h
        rcases hl : lengthLoop F' cX ni with _ | ⟨⟨l, c''⟩⟩ <;> rw [hl] at h
        · simp at h
        · have h' : (some ((it, ni) :: l, c'') : Option (List (Iter × Val) × Chain)) = some ([], c2) := h
          simp at h'

theorem lsim_main : ∀ f1 : Nat,
    (∀ {c1 c2 : Chain} {x1 x2 : Val} {it1 it2 : Iter} {ni1 ni2 : Val} {d1 d2 : Chain} {f2 : Nat}, LSim false c1 c2 → jsCore f1 true c1 x1 = some (it1, ni1, d1) → jsCore f2 true c2 x2 = some (it2, ni2, d2) → it1 = it2 ∧ LSim false d1 d2) ∧
    (∀ {cl : Closure} {fo : Option (Val → Val → Bool)} {mo : Option (Val → Val → Val)} {st1 st2 : NState} {p1 p2 : Chain} {x : Val} {it1 it2 : Iter} {ni1 ni2 : Val} {d1 d2 : Chain} {f2 : Nat}, LSim false p1 p2 → jsCore f1 false (.node cl fo mo none st1 p1) x = some (it1, ni1, d1) → jsCore f2 false (.node cl fo mo none st2 p2) x = some (it2, ni2, d2) → it1 = it2 ∧ ni1 = ni2 ∧ ∃ p1' p2', d1 = .node cl fo mo none st1 p1' ∧ d2 = .node cl fo mo none st2 p2' ∧ LSim false p1' p2') := by
  intro f1
  induction f1 with
  | zero =>
      constructor
      · intro c1 c2 x1 x2 it1 it2 ni1 ni2 d1 d2 f2 h h1 h2
        simp [jsCore] at h1
      · intro cl fo mo st1 st2 p1 p2 x it1 it2 ni1 ni2 d1 d2 f2 hp h1 h2
        simp [jsCore] at h1
  | succ f ih =>
      obtain ⟨ihQ, ihP⟩ := ih
      constructor
      · intro c1 c2 x1 x2 it1 it2 ni1 ni2 d1 d2 f2 h h1 h2
        cases f2 with
        | zero => simp [jsCore] at h2
        | succ g2 =>
        cases h with
        | @root cl pc st1 st2 g hb1 hb2 hix hcv =>
            obtain ⟨cm1, hg1, hd1⟩ := jsCore_true_inv (show (stOf (Chain.root cl pc st1)).preGen = [] from hb1) h1
            obtain ⟨cm2, hg2, hd2⟩ := jsCore_true_inv (show (stOf (Chain.root cl pc st2)).preGen = [] from hb2) h2
            obtain ⟨e1, e2, e3⟩ := jsCore_false_root_inv hg1
            obtain ⟨e4, e5, e6⟩ := jsCore_false_root_inv hg2
            rw [hcv] at e1 e3
            subst e1
            subst e4
            subst e3
            subst e6
            subst e2
            subst e5
            subst hd1
            subst hd2
            refine ⟨rfl, ?_⟩
            refine LSim.root cl _ _ _ hb1 hb2 ?_ rfl
            show bumpIndex (stOf (Chain.root cl pc st1)).index = bumpIndex (stOf (Chain.root cl pc st2)).index
            rw [show (stOf (Chain.root cl pc st1)).index = (stOf (Chain.root cl pc st2)).index from hix]
        | @df cc1 cc2 g h1m h2m h3m h4m h5m h6m =>
            obtain ⟨hmf1, hbe1, hdone1, hrf1⟩ := mf_step h1m h2m h1
            obtain ⟨hmf2, hbe2, hdone2, hrf2⟩ := mf_step h4m h5m h2
            obtain ⟨hit1, hrfd1⟩ := hdone1 (hrf1 h3m)
            obtain ⟨hit2, hrfd2⟩ := hdone2 (hrf2 h6m)
            rw [hit1, hit2]
            exact ⟨rfl, LSim.df hmf1 hbe1 hrfd1 hmf2 hbe2 hrfd2⟩
        | @lift cl fo mo st1 st2 p1 p2 g hb1 hb2 hix hp =>
            obtain ⟨cm1, hg1, hd1⟩ := jsCore_true_inv (show (stOf (Chain.node cl fo mo none st1 p1)).preGen = [] from hb1) h1
            obtain ⟨cm2, hg2, hd2⟩ := jsCore_true_inv (show (stOf (Chain.node cl fo mo none st2 p2)).preGen = [] from hb2) h2
            have hg1' : jsCore f false (.node cl fo mo none st1 p1) st1.index = some (it1, ni1, cm1) := hg1
            have hg2' : jsCore g2 false (.node cl fo mo none st2 p2) st1.index = some (it2, ni2, cm2) := by
              have hg2x : jsCore g2 false (.node cl fo mo none st2 p2) st2.index = some (it2, ni2, cm2) := hg2
              rw [← hix] at hg2x
              exact hg2x
            obtain ⟨hit, hni, p1', p2', hs1, hs2, hrel⟩ := ihP hp hg1' hg2'
            subst hs1
            subst hs2
            subst hd1
            subst hd2
            refine ⟨hit, ?_⟩
            refine LSim.lift cl fo mo _ _ hb1 hb2 ?_ hrel
            show ni1 = ni2
            exact hni
        | @buf cl fo mo stL stB stX pL pD entries F hbL hbB hix hmf hbe hloop =>
            cases entries with
            | cons e0 rest =>
                obtain ⟨a, b⟩ := e0
                have hshift : jsCore (g2 + 1) true (Chain.node cl fo mo none stB pD) x2 = some (a, b, withSt (Chain.node cl fo mo none stB pD) { stOf (Chain.node cl fo mo none stB pD) with preGen := rest, index := b, currentValue := a.value, genCount := bumpIndex (stOf (Chain.node cl fo mo none stB pD)).genCount }) := jsCore_true_shift (show (stOf (Chain.node cl fo mo none stB pD)).preGen = (a, b) :: rest from hbB)
                rw [hshift] at h2
                obtain ⟨e1, e2, e3⟩ := some3_inj h2
                obtain ⟨F2, cX, hF, hgX, hadone, htail⟩ := lenLoop_cons_inv hloop
                obtain ⟨pL2, hcXeq, hgL⟩ := gnv_node_st_congr hgX stL
                subst hcXeq
                obtain ⟨cm1, hg1, hd1⟩ := jsCore_true_inv (show (stOf (Chain.node cl fo mo none stL pL)).preGen = [] from hbL) h1
                have hg1' : jsCore f false (.node cl fo mo none stL pL) stL.index = some (it1, ni1, cm1) := hg1
                have hdet := gnv_det hg1' hgL
                obtain ⟨w1, w2, w3⟩ : it1 = a ∧ ni1 = b ∧ cm1 = .node cl fo mo none stL pL2 := ⟨congrArg Prod.fst hdet, congrArg (fun r => r.2.1) hdet, congrArg (fun r => r.2.2) hdet⟩
                subst w1
                subst w2
                subst w3
                subst hd1
                subst e1
                subst e2
                subst e3
                obtain ⟨hmfn, hben, hdnx, hrfx⟩ := mf_step (show MF (Chain.node cl fo mo none stL pL) from ⟨rfl, hmf⟩) (show BufEmpty (Chain.node cl fo mo none stL pL) from ⟨hbL, hbe⟩) hgL
                refine ⟨rfl, ?_⟩
                refine LSim.buf cl fo mo _ _ stX rest F2 hbL rfl rfl ?_ ?_ ?_
                · exact hmfn.2
                · exact hben.2
                · exact htail
            | nil =>
                obtain ⟨F2, itD, niD, hF, hgX, hDdone⟩ := lenLoop_nil_inv hloop
                obtain ⟨pDx, hEq, hgL⟩ := gnv_node_st_congr hgX stL
                have hpDx : pDx = pD := by
                  injection hEq with q1 q2 q3 q4 q5 q6
                  exact q6.symm
                rw [hpDx] at hgL
                obtain ⟨cm1, hg1, hd1⟩ := jsCore_true_inv (show (stOf (Chain.node cl fo mo none stL pL)).preGen = [] from hbL) h1
                have hg1' : jsCore f false (.node cl fo mo none stL pL) stL.index = some (it1, ni1, cm1) := hg1
                have hdet := gnv_det hg1' hgL
                obtain ⟨w1, w2, w3⟩ : it1 = itD ∧ ni1 = niD ∧ cm1 = .node cl fo mo none stL pD := ⟨congrArg Prod.fst hdet, congrArg (fun r => r.2.1) hdet, congrArg (fun r => r.2.2) hdet⟩
                subst w1
                subst w2
                subst w3
                obtain ⟨hmfn, hben, hdn, hrfquux⟩ := mf_step (show MF (Chain.node cl fo mo none stL pL) from ⟨rfl, hmf⟩) (show BufEmpty (Chain.node cl fo mo none stL pL) from ⟨hbL, hbe⟩) hgL
                obtain ⟨hitD, hrfn⟩ := hdn hDdone
                obtain ⟨cm2, hg2, hd2⟩ := jsCore_true_inv (show (stOf (Chain.node cl fo mo none stB pD)).preGen = [] from hbB) h2
                obtain ⟨hmf2, hbe2, hdn2, hrf2⟩ := mf_step (show MF (Chain.node cl fo mo none stB pD) from ⟨rfl, hmfn.2⟩) (show BufEmpty (Chain.node cl fo mo none stB pD) from ⟨hbB, hben.2⟩) hg2
                obtain ⟨hitD2, hrfn2⟩ := hdn2 (hrf2 (show RootFin (Chain.node cl fo mo none stB pD) from hrfn))
                subst hd1
                subst hd2
                rw [hitD, hitD2]
                refine ⟨rfl, LSim.df (mf_withSt hmfn) (bufEmpty_withSt hben ?_) (rootFin_withSt hrfn) (mf_withSt hmf2) (bufEmpty_withSt hbe2 ?_) (rootFin_withSt hrfn2)⟩
                · exact hben.1
                · cases cm2 with
                  | root cl2 pc2 st2x => exact hbe2
                  | node cl2 f2x m2x s2x st2x p2x => exact hbe2.1
      · intro cl fo mo st1 st2 p1 p2 x it1 it2 ni1 ni2 d1 d2 f2 hp h1 h2
        cases f2 with
        | zero => simp [jsCore] at h2
        | succ g2 =>
        rw [jsCore.eq_def] at h1 h2
        dsimp only at h1 h2
        rcases hp1 : jsCore f true p1 (.int 0) with _ | ⟨⟨itp1, nip1, p1'⟩⟩ <;> rw [hp1] at h1
        · simp at h1
        rcases hp2 : jsCore g2 true p2 (.int 0) with _ | ⟨⟨itp2, nip2, p2'⟩⟩ <;> rw [hp2] at h2
        · simp at h2
        obtain ⟨hit, hrel⟩ := ihQ hp hp1 hp2
        subst hit
        dsimp only at h1 h2
        by_cases hd : itp1.done = true
        · simp only [hd, if_true] at h1 h2
          obtain ⟨e1, e2, e3⟩ := some3_inj h1
          obtain ⟨e4, e5, e6⟩ := some3_inj h2
          subst e1; subst e2; subst e4; subst e5
          exact ⟨rfl, rfl, p1', p2', e3.symm, e6.symm, hrel⟩
        · simp only [hd, Bool.false_eq_true, if_false] at h1 h2
          rcases fo with _ | φ
          · obtain ⟨e1, e2, e3⟩ := some3_inj h1
            obtain ⟨e4, e5, e6⟩ := some3_inj h2
            subst e1; subst e2; subst e4; subst e5
            exact ⟨rfl, rfl, p1', p2', e3.symm, e6.symm, hrel⟩
          · by_cases hφ : φ itp1.value (bumpIndex x) = true
            · simp only [hφ, Bool.not_true, Bool.false_eq_true, if_false] at h1 h2
              obtain ⟨e1, e2, e3⟩ := some3_inj h1
              obtain ⟨e4, e5, e6⟩ := some3_inj h2
              subst e1; subst e2; subst e4; subst e5
              exact ⟨rfl, rfl, p1', p2', e3.symm, e6.symm, hrel⟩
            · simp only [eq_false_of_ne_true hφ, Bool.not_false, if_true] at h1 h2
              exact ihP hrel h1 h2

theorem lsim_stepTo {c1 c2 : Chain} (h : LSim false c1 c2) {it1 : Iter} {d1 : Chain} (h1 : StepTo c1 it1 d1) {it2 : Iter} {d2 : Chain} (h2 : StepTo c2 it2 d2) : it1 = it2 ∧ LSim false d1 d2 := by
  obtain ⟨f1, hf1⟩ := h1
  obtain ⟨f2, hf2⟩ := h2
  unfold rangeNext at hf1 hf2
  rcases hg1 : jsCore f1 true c1 (.int 0) with _ | ⟨⟨a1, n1, m1⟩⟩ <;> rw [hg1] at hf1
  · simp at hf1
  rcases hg2 : jsCore f2 true c2 (.int 0) with _ | ⟨⟨a2, n2, m2⟩⟩ <;> rw [hg2] at hf2
  · simp at hf2
  obtain ⟨e1, e2⟩ : a1 = it1 ∧ m1 = d1 := by simpa using hf1
  obtain ⟨e3, e4⟩ : a2 = it2 ∧ m2 = d2 := by simpa using hf2
  subst e1; subst e2; subst e3; subst e4
  exact (lsim_main f1).1 h hg1 hg2

theorem lsim_runs {c1 c2 : Chain} (h : LSim false c1 c2) : ∀ {l1 : List Iter} {d1 : Chain} {l2 : List Iter} {d2 : Chain}, Run c1 l1 d1 → Run c2 l2 d2 → l1.length = l2.length → l1 = l2 := by
  intro l1 d1 l2 d2 hr1 hr2 hlen
  induction hr1 generalizing c2 l2 d2 with
  | nil =>
      cases hr2 with
      | nil => rfl
      | cons hs hr => simp at hlen
  | cons hs1 hr1 ih =>
      cases hr2 with
      | nil => simp at hlen
      | cons hs2 hr2 =>
          obtain ⟨hit, hrel⟩ := lsim_stepTo h hs1 hs2
          rw [hit]
          rw [ih hrel hr2 (by simpa using hlen)]

theorem lsim_refl : ∀ (c : Chain), MF c → BufEmpty c → LSim false c c := by
  intro c
  induction c with
  | root cl pc st => intro hmf hbe; exact LSim.root cl pc st st hbe hbe rfl rfl
  | node cl fo mo so st p ih =>
      intro hmf hbe
      obtain ⟨hso, hmfp⟩ := hmf
      rw [Option.isNone_iff_eq_none] at hso
      subst hso
      exact LSim.lift cl fo mo st st hbe.1 hbe.1 rfl (ih hmfp hbe.2)

theorem lsim_withCache : ∀ (c : Chain) (st2 : NState), MF c → BufEmpty c → st2.preGen = (stOf c).preGen → st2.index = (stOf c).index → st2.currentValue = (stOf c).currentValue → LSim false c (withSt c st2) := by
  intro c st2 hmf hbe hpre hix hcv
  cases c with
  | root cl pc st => exact LSim.root cl pc st st2 hbe (hpre.trans hbe) hix.symm hcv.symm
  | node cl fo mo so st p =>
      obtain ⟨hso, hmfp⟩ := hmf
      rw [Option.isNone_iff_eq_none] at hso
      subst hso
      exact LSim.lift cl fo mo st st2 hbe.1 (hpre.trans hbe.1) hix.symm (lsim_refl p hmfp hbe.2)

theorem stOf_withSt (c : Chain) (st : NState) : stOf (withSt c st) = st := by
  cases c <;> rfl

theorem lenLoop_shape : ∀ {F : Nat} {cl : Closure} {fo : Option (Val → Val → Bool)} {mo : Option (Val → Val → Val)} {st : NState} {p : Chain} {idx : Val} {entries : List (Iter × Val)} {c2 : Chain}, lengthLoop F (.node cl fo mo none st p) idx = some (entries, c2) → ∃ p2, c2 = .node cl fo mo none st p2 := by
  intro F
  induction F with
  | zero =>
      intro cl fo mo st p idx entries c2 h
      simp [lengthLoop] at h
  | succ F ih =>
      intro cl fo mo st p idx entries c2 h
      simp only [lengthLoop] at h
      rcases hg : getNextValue F (.node cl fo mo none st p) idx with _ | ⟨⟨it, ni, cX⟩⟩ <;> rw [hg] at h
      · simp at h
      · obtain ⟨pX, hcX, _⟩ := gnv_node_st_congr hg st
        subst hcX
        by_cases hd : it.done = true
        · simp only [hd, if_true] at h
          have h' : (some (([] : List (Iter × Val)), Chain.node cl fo mo none st pX) : Option (List (Iter × Val) × Chain)) = some (entries, c2) := h
          obtain ⟨e1, e2⟩ := Prod.mk.injEq _ _ _ _ ▸ Option.some.inj h'
          exact ⟨pX, e2.symm⟩
        · simp only [hd, Bool.false_eq_true, if_false] at h
          rcases hl : lengthLoop F (Chain.node cl fo mo none st pX) ni with _ | ⟨⟨l2, c3⟩⟩ <;> rw [hl] at h
          · simp at h
          · obtain ⟨p3, hc3⟩ := ih hl
            subst hc3
            have h' : (some ((it, ni) :: l2, Chain.node cl fo mo none st p3) : Option (List (Iter × Val) × Chain)) = some (entries, c2) := h
            obtain ⟨e1, e2⟩ := Prod.mk.injEq _ _ _ _ ▸ Option.some.inj h'
            exact ⟨p3, e2.symm⟩

theorem lsim_init : ∀ {F : Nat} {c : Chain} {l : Val} {c' : Chain}, MF c → BufEmpty c → lengthGet F c = some (l, c') → LSim false c c' := by
  intro F
  induction F with
  | zero =>
      intro c l c' hmf hbe h
      rw [lengthGet.eq_def] at h
      dsimp only at h
      rcases hm : (stOf c).cachedLength with _ | l0 <;> rw [hm] at h
      · dsimp only at h
        by_cases hfin : (stOf c).isFin = true
        · simp only [hfin, Bool.not_true, Bool.false_eq_true, if_false] at h
          by_cases hfs : ((filterOf c).isNone && (stopOf c).isNone) = true
          · simp only [hfs, if_true] at h
            match c, hmf, hbe, h with
            | .node cl fo mo so st parent, hmf, hbe, h => simp at h
            | .root cl pc st, hmf, hbe, h =>
                obtain ⟨e1, e2⟩ := Prod.mk.injEq _ _ _ _ ▸ Option.some.inj h
                subst e2
                exact LSim.root cl pc st _ hbe hbe rfl rfl
          · simp only [eq_false_of_ne_true hfs, Bool.false_eq_true, if_false] at h
            simp [lengthLoop] at h
        · simp only [eq_false_of_ne_true hfin, Bool.not_false, if_true] at h
          obtain ⟨e1, e2⟩ := Prod.mk.injEq _ _ _ _ ▸ Option.some.inj h
          subst e2
          exact lsim_withCache c _ hmf hbe rfl rfl rfl
      · obtain ⟨e1, e2⟩ := Prod.mk.injEq _ _ _ _ ▸ Option.some.inj h
        subst e2
        exact lsim_refl c hmf hbe
  | succ F ih =>
      intro c l c' hmf hbe h
      rw [lengthGet.eq_def] at h
      dsimp only at h
      rcases hm : (stOf c).cachedLength with _ | l0 <;> rw [hm] at h
      · dsimp only at h
        by_cases hfin : (stOf c).isFin = true
        · simp only [hfin, Bool.not_true, Bool.false_eq_true, if_false] at h
          by_cases hfs : ((filterOf c).isNone && (stopOf c).isNone) = true
          · simp only [hfs, if_true] at h
            match c, hmf, hbe, h with
            | .node cl fo mo so st parent, hmf, hbe, h =>
                dsimp only at h
                rcases hp : lengthGet F parent with _ | ⟨⟨lp, parent'⟩⟩ <;> rw [hp] at h
                · simp at h
                · obtain ⟨e1, e2⟩ := Prod.mk.injEq _ _ _ _ ▸ Option.some.inj h
                  subst e2
                  obtain ⟨hso, hmfp⟩ := hmf
                  rw [Option.isNone_iff_eq_none] at hso
                  subst hso
                  exact LSim.lift cl fo mo st _ hbe.1 hbe.1 rfl (ih hmfp hbe.2 hp)
            | .root cl pc st, hmf, hbe, h =>
                obtain ⟨e1, e2⟩ := Prod.mk.injEq _ _ _ _ ▸ Option.some.inj h
                subst e2
                exact LSim.root cl pc st _ hbe hbe rfl rfl
          · simp only [eq_false_of_ne_true hfs, Bool.false_eq_true, if_false] at h
            match c, hmf, hbe, hfs, h with
            | .root cl pc st, hmf, hbe, hfs, h => simp [filterOf, stopOf] at hfs
            | .node cl fo mo so st parent, hmf, hbe, hfs, h =>
                obtain ⟨hso, hmfp⟩ := hmf
                rw [Option.isNone_iff_eq_none] at hso
                subst hso
                rcases hl : lengthLoop (F + 1) (Chain.node cl fo mo none st parent) (stOf (Chain.node cl fo mo none st parent)).index with _ | ⟨⟨entries, c2⟩⟩ <;> rw [hl] at h
                · simp at h
                · obtain ⟨p2, hc2⟩ := lenLoop_shape hl
                  subst hc2
                  dsimp only at h
                  obtain ⟨e1, e2⟩ := Prod.mk.injEq _ _ _ _ ▸ Option.some.inj h
                  subst e2
                  have hbuf : st.preGen = [] := hbe.1
                  refine LSim.buf cl fo mo st _ st entries (F + 1) hbuf ?_ rfl hmfp hbe.2 ?_
                  · show (stOf (Chain.node cl fo mo none st p2)).preGen ++ entries = entries
                    rw [show (stOf (Chain.node cl fo mo none st p2)).preGen = [] from hbuf]
                    exact List.nil_append entries
                  · exact hl
        · simp only [eq_false_of_ne_true hfin, Bool.not_false, if_true] at h
          obtain ⟨e1, e2⟩ := Prod.mk.injEq _ _ _ _ ▸ Option.some.inj h
          subst e2
          exact lsim_withCache c _ hmf hbe rfl rfl rfl
      · obtain ⟨e1, e2⟩ := Prod.mk.injEq _ _ _ _ ▸ Option.some.inj h
        subst e2
        exact lsim_refl c hmf hbe

theorem lengthGet_cached {F : Nat} {c : Chain} {l : Val} (h : (stOf c).cachedLength = some l) : lengthGet F c = some (l, c) := by
  rw [lengthGet.eq_def]
  dsimp only
  rw [h]

theorem lengthGet_sets : ∀ {F : Nat} {c : Chain} {l : Val} {c' : Chain}, lengthGet F c = some (l, c') → (stOf c').cachedLength = some l := by
  intro F
  induction F with
  | zero =>
      intro c l c' h
      rw [lengthGet.eq_def] at h
      dsimp only at h
      rcases hm : (stOf c).cachedLength with _ | l0 <;> rw [hm] at h
      · dsimp only at h
        by_cases hfin : (stOf c).isFin = true
        · simp only [hfin, Bool.not_true, Bool.false_eq_true, if_false] at h
          by_cases hfs : ((filterOf c).isNone && (stopOf c).isNone) = true
          · simp only [hfs, if_true] at h
            match c, h with
            | .node cl fo mo so st parent, h => simp at h
            | .root cl pc st, h =>
                obtain ⟨e1, e2⟩ := Prod.mk.injEq _ _ _ _ ▸ Option.some.inj h
                subst e2
                subst e1
                rfl
          · simp only [eq_false_of_ne_true hfs, Bool.false_eq_true, if_false] at h
            simp [lengthLoop] at h
        · simp only [eq_false_of_ne_true hfin, Bool.not_false, if_true] at h
          obtain ⟨e1, e2⟩ := Prod.mk.injEq _ _ _ _ ▸ Option.some.inj h
          subst e2
          subst e1
          rw [stOf_withSt]
      · obtain ⟨e1, e2⟩ := Prod.mk.injEq _ _ _ _ ▸ Option.some.inj h
        subst e2
        subst e1
        exact hm
  | succ F ih =>
      intro c l c' h
      rw [lengthGet.eq_def] at h
      dsimp only at h
      rcases hm : (stOf c).cachedLength with _ | l0 <;> rw [hm] at h
      · dsimp only at h
        by_cases hfin : (stOf c).isFin = true
        · simp only [hfin, Bool.not_true, Bool.false_eq_true, if_false] at h
          by_cases hfs : ((filterOf c).isNone && (stopOf c).isNone) = true
          · simp only [hfs, if_true] at h
            match c, h with
            | .node cl fo mo so st parent, h =>
                dsimp only at h
                rcases hp : lengthGet F parent with _ | ⟨⟨lp, parent'⟩⟩ <;> rw [hp] at h
                · simp at h
                · obtain ⟨e1, e2⟩ := Prod.mk.injEq _ _ _ _ ▸ Option.some.inj h
                  subst e2
                  subst e1
                  rfl
            | .root cl pc st, h =>
                obtain ⟨e1, e2⟩ := Prod.mk.injEq _ _ _ _ ▸ Option.some.inj h
                subst e2
                subst e1
                rfl
          · simp only [eq_false_of_ne_true hfs, Bool.false_eq_true, if_false] at h
            rcases hl : lengthLoop (F + 1) c (stOf c).index with _ | ⟨⟨entries, c2⟩⟩ <;> rw [hl] at h
            · simp at h
            · dsimp only at h
              obtain ⟨e1, e2⟩ := Prod.mk.injEq _ _ _ _ ▸ Option.some.inj h
              subst e2
              subst e1
              rw [stOf_withSt]
        · simp only [eq_false_of_ne_true hfin, Bool.not_false, if_true] at h
          obtain ⟨e1, e2⟩ := Prod.mk.injEq _ _ _ _ ▸ Option.some.inj h
          subst e2
          subst e1
          rw [stOf_withSt]
      · obtain ⟨e1, e2⟩ := Prod.mk.injEq _ _ _ _ ▸ Option.some.inj h
        subst e2
        subst e1
        exact hm

/-- C7 (corrected): a second `length` read returns the memoized value
with the chain untouched (any chain); and on a stop-free chain of
map/filter nodes with empty buffers, a `length` read leaves the
subsequent `next()` output unchanged: equal-length runs from the
original chain and from the post-read chain return identical iteration
lists (the pre-generated buffer is replayed before fresh values, in the
recorded order).  The takeWhile counterexample `C7_counterexample` is
why stop predicates are excluded. -/
theorem C7_theorem :
    (∀ (F F2 : Nat) (c : Chain) (l : Val) (c' : Chain), lengthGet F c = some (l, c') → lengthGet F2 c' = some (l, c')) ∧
    (∀ (F : Nat) (c : Chain) (l : Val) (c' : Chain), MF c → BufEmpty c → lengthGet F c = some (l, c') → ∀ (l1 : List Iter) (d1 : Chain) (l2 : List Iter) (d2 : Chain), Run c l1 d1 → Run c' l2 d2 → l1.length = l2.length → l1 = l2) := by
  constructor
  · intro F F2 c l c' h
    exact lengthGet_cached (lengthGet_sets h)
  · intro F c l c' hmf hbe h l1 d1 l2 d2 hr1 hr2 hlen
    exact lsim_runs (lsim_init hmf hbe h) hr1 hr2 hlen

/-- C7 witness: `range(0, 3).filter(v => v !== 1)`, whose length read
buffers both surviving values. -/
theorem C7_theorem_witness : ∃ l c', lengthGet 20 w7c = some (l, c') ∧ lengthGet 5 c' = some (l, c') ∧ (∀ l1 d1 l2 d2, Run w7c l1 d1 → Run c' l2 d2 → l1.length = l2.length → l1 = l2) := by
  rcases hEv : lengthGet 20 w7c with _ | ⟨⟨l, c'⟩⟩
  · have hsome : (lengthGet 20 w7c).isSome = true := by decide
    rw [hEv] at hsome
    simp at hsome
  · exact ⟨l, c', rfl, C7_theorem.1 20 5 w7c l c' hEv, fun l1 d1 l2 d2 hr1 hr2 hlen => C7_theorem.2 20 w7c l c' ⟨rfl, rfl⟩ ⟨rfl, rfl⟩ hEv l1 d1 l2 d2 hr1 hr2 hlen⟩
